import Mathlib

/-!
# Verification of the renderer's core pipeline

Shallow embedding over `ℚ` of the repository's ray-tracer core (triangle and
sphere intersection, AABB slab tests, BVH build/traversal, recursive shading),
the real-time tile scheduler and adaptive-quality controller, the model's
blend-shape and vertex-mutation operations, the scene graph's node deletion,
and the second-pass shadow-mapping fragment shader.

Conventions of the embedding:
* C++ `double`/`float` arithmetic is modelled by exact `ℚ` arithmetic.
  Square roots and `pow`, which are irrational in general, are modelled by
  oracle parameters (`sq`, `powO`); theorems that depend on their values
  carry the corresponding hypotheses (e.g. `sq 0 = 0`, `0 ≤ sq x`), which any
  genuine square root satisfies.
* The AABB slab test divides by ray-direction components that may be zero;
  since IEEE division by zero is load-bearing there, the slab test is
  modelled with an extended value type `EQ` (finite / +inf / -inf / NaN)
  whose comparisons and `std::min`/`std::max` mirror IEEE and libstdc++
  semantics.  The upper interval bound `t_max` is an `EQ` everywhere, so
  `rt_infinity` is `EQ.pinf`.
* Elsewhere, division by zero follows the `ℚ` convention `x / 0 = 0`; the
  claims settled below do not hinge on those corners.
-/

set_option maxHeartbeats 1000000

/-- 3-component vector over `ℚ` (models `rt_vec3` / `Vec3f`). -/
structure Vec3q where
  x : ℚ
  y : ℚ
  z : ℚ
  deriving DecidableEq, Repr

namespace Vec3q

def add (a b : Vec3q) : Vec3q := ⟨a.x + b.x, a.y + b.y, a.z + b.z⟩

def sub (a b : Vec3q) : Vec3q := ⟨a.x - b.x, a.y - b.y, a.z - b.z⟩

def neg (a : Vec3q) : Vec3q := ⟨-a.x, -a.y, -a.z⟩

def smul (k : ℚ) (a : Vec3q) : Vec3q := ⟨k * a.x, k * a.y, k * a.z⟩

/-- Componentwise division by a scalar (models `rt_vec3 / t`). -/
def sdiv (a : Vec3q) (k : ℚ) : Vec3q := ⟨a.x / k, a.y / k, a.z / k⟩

def dot (a b : Vec3q) : ℚ := a.x * b.x + a.y * b.y + a.z * b.z

def cross (a b : Vec3q) : Vec3q :=
  ⟨a.y * b.z - a.z * b.y, a.z * b.x - a.x * b.z, a.x * b.y - a.y * b.x⟩

def length_squared (a : Vec3q) : ℚ := a.x * a.x + a.y * a.y + a.z * a.z

/-- `operator[]` on a vector, with the C++ 0/1/2 axis indexing. -/
def idx (a : Vec3q) : ℕ → ℚ
  | 0 => a.x
  | 1 => a.y
  | _ => a.z

/-- Componentwise product (models `rt_color * rt_color`). -/
def cmul (a b : Vec3q) : Vec3q := ⟨a.x * b.x, a.y * b.y, a.z * b.z⟩

def zero : Vec3q := ⟨0, 0, 0⟩

end Vec3q

/-- `unit_vector(v) = v / v.length()`, with the square root supplied by the
oracle `sq` applied to `length_squared`. -/
def unit_vector (sq : ℚ → ℚ) (v : Vec3q) : Vec3q := v.sdiv (sq v.length_squared)

/-- A ray (`rt_ray`): origin and (unnormalised) direction. -/
structure Ray where
  orig : Vec3q
  dir : Vec3q
  deriving DecidableEq, Repr

/-- `rt_ray::at(t) = origin + t * direction`. -/
def Ray.at (r : Ray) (t : ℚ) : Vec3q := r.orig.add (Vec3q.smul t r.dir)

/-!
## Extended values for the AABB slab test

`rt_aabb::hit` computes `(min[a] - origin[a]) / direction[a]` on doubles, so a
zero direction component produces `±inf` or `NaN`.  `EQ` carries exactly those
values; `elt`/`ele` are IEEE `<`/`<=` (false on NaN), and `stdmin`/`stdmax`
are `std::min`/`std::max`, i.e. `min(a,b) = b < a ? b : a`,
`max(a,b) = a < b ? b : a`.
-/

inductive EQ where
  | nan
  | ninf
  | pinf
  | fin (q : ℚ)
  deriving DecidableEq, Repr

namespace EQ

/-- IEEE `<` on extended values: false whenever an operand is NaN. -/
def elt : EQ → EQ → Bool
  | nan, _ => false
  | _, nan => false
  | ninf, ninf => false
  | ninf, _ => true
  | _, ninf => false
  | pinf, _ => false
  | fin _, pinf => true
  | fin a, fin b => if a < b then true else false

/-- IEEE `<=` on extended values: false whenever an operand is NaN. -/
def ele : EQ → EQ → Bool
  | nan, _ => false
  | _, nan => false
  | ninf, _ => true
  | _, ninf => false
  | _, pinf => true
  | pinf, fin _ => false
  | fin a, fin b => if a ≤ b then true else false

/-- `std::min(a, b) = (b < a) ? b : a`. -/
def stdmin (a b : EQ) : EQ := if elt b a then b else a

/-- `std::max(a, b) = (a < b) ? b : a`. -/
def stdmax (a b : EQ) : EQ := if elt a b then b else a

/-- IEEE division of finite values (the slab-test numerators and denominators
are finite): `q / 0` is `±inf` by the sign of `q`, and `0 / 0` is NaN. -/
def ediv (q d : ℚ) : EQ :=
  if d = 0 then
    if 0 < q then pinf else if q < 0 then ninf else nan
  else fin (q / d)

end EQ

/-- Hit record (`rt_hit_record`); the material handle is a numeric id. -/
structure HitRec where
  t : ℚ
  p : Vec3q
  normal : Vec3q
  front_face : Bool
  mat : ℕ
  deriving DecidableEq, Repr

/-- `rt_hit_record::set_face_normal`. -/
def set_face_normal (r : Ray) (outward : Vec3q) : Bool × Vec3q :=
  let front := r.dir.dot outward < 0
  (front, if front then outward else outward.neg)

/-- Ray-tracer primitives: `rt_triangle` (with its constructor-precomputed
`edge1`, `edge2`, `normal` stored) and `rt_sphere`. -/
inductive Prim where
  | tri (v0 v1 v2 edge1 edge2 normal : Vec3q) (mat : ℕ)
  | sph (center : Vec3q) (radius : ℚ) (mat : ℕ)
  deriving DecidableEq, Repr

/-- The `rt_triangle` constructor: stores the vertices and precomputes
`edge1 = v1 - v0`, `edge2 = v2 - v0`, `normal = unit_vector(cross(edge1, edge2))`. -/
def mk_rt_triangle (sq : ℚ → ℚ) (v0 v1 v2 : Vec3q) (mat : ℕ) : Prim :=
  let edge1 := v1.sub v0
  let edge2 := v2.sub v0
  Prim.tri v0 v1 v2 edge1 edge2 (unit_vector sq (edge1.cross edge2)) mat

/-- `rt_triangle::hit`: Möller-Trumbore with determinant epsilon `1e-8`,
barycentric-range rejection, and the interval test `t < t_min || t > t_max`
(the upper bound is an extended value, `rt_infinity` being `EQ.pinf`). -/
def rt_triangle_hit (v0 _v1 _v2 edge1 edge2 normal : Vec3q) (mat : ℕ)
    (r : Ray) (t_min : ℚ) (t_max : EQ) : Option HitRec :=
  let EPSILON : ℚ := 1 / 100000000
  let h := r.dir.cross edge2
  let a := edge1.dot h
  if -EPSILON < a ∧ a < EPSILON then none
  else
    let f := 1 / a
    let s := r.orig.sub v0
    let u := f * s.dot h
    if u < 0 ∨ u > 1 then none
    else
      let q := s.cross edge1
      let v := f * r.dir.dot q
      if v < 0 ∨ u + v > 1 then none
      else
        let t := f * edge2.dot q
        if t < t_min ∨ EQ.elt t_max (EQ.fin t) then none
        else
          let fn := set_face_normal r normal
          some ⟨t, r.at t, fn.2, fn.1, mat⟩

/-- The root-selection logic of `rt_sphere::hit`: the smaller root is
preferred, the larger is the fallback, both checked against
`[t_min, t_max]` (`root < t_min || root > t_max` rejects). -/
def sphere_root (t_min : ℚ) (t_max : EQ) (root1 root2 : ℚ) : Option ℚ :=
  if root1 < t_min ∨ EQ.elt t_max (EQ.fin root1) then
    if root2 < t_min ∨ EQ.elt t_max (EQ.fin root2) then none else some root2
  else some root1

/-- `rt_sphere::hit`: the standard quadratic, smaller root preferred, with the
square root of the discriminant supplied by the oracle `sq`. -/
def rt_sphere_hit (sq : ℚ → ℚ) (center : Vec3q) (radius : ℚ) (mat : ℕ)
    (r : Ray) (t_min : ℚ) (t_max : EQ) : Option HitRec :=
  let oc := center.sub r.orig
  let a := r.dir.length_squared
  let h := r.dir.dot oc
  let c := oc.length_squared - radius * radius
  let discriminant := h * h - a * c
  if discriminant < 0 then none
  else
    let sqrtd := sq discriminant
    match sphere_root t_min t_max ((h - sqrtd) / a) ((h + sqrtd) / a) with
    | none => none
    | some rt =>
      let p := r.at rt
      let outward := (p.sub center).sdiv radius
      let fn := set_face_normal r outward
      some ⟨rt, p, fn.2, fn.1, mat⟩

/-- Dispatch of the virtual `rt_hittable::hit` over the two primitive kinds. -/
def prim_hit (sq : ℚ → ℚ) (p : Prim) (r : Ray) (t_min : ℚ) (t_max : EQ) :
    Option HitRec :=
  match p with
  | Prim.tri v0 v1 v2 e1 e2 n m => rt_triangle_hit v0 v1 v2 e1 e2 n m r t_min t_max
  | Prim.sph c rad m => rt_sphere_hit sq c rad m r t_min t_max

/-- `rt_hittable_list::hit`: fold over the objects, narrowing
`closest_so_far` to the last accepted `t` and keeping its record. -/
def rt_hittable_list_hit (sq : ℚ → ℚ) (objects : List Prim) (r : Ray)
    (t_min : ℚ) (t_max : EQ) : Option HitRec :=
  objects.foldl
    (fun acc obj =>
      let closest := match acc with
        | some rec0 => EQ.fin rec0.t
        | none => t_max
      match prim_hit sq obj r t_min closest with
      | some rec1 => some rec1
      | none => acc)
    none

/-!
## AABB and BVH (`bvh.h`, `bvh.cpp`)
-/

/-- `rt_aabb`: axis-aligned box with `min`/`max` corners. -/
structure Aabb where
  lo : Vec3q
  hi : Vec3q
  deriving DecidableEq, Repr

/-- `rt_aabb::combine`. -/
def rt_aabb_combine (b0 b1 : Aabb) : Aabb :=
  ⟨⟨min b0.lo.x b1.lo.x, min b0.lo.y b1.lo.y, min b0.lo.z b1.lo.z⟩,
   ⟨max b0.hi.x b1.hi.x, max b0.hi.y b1.hi.y, max b0.hi.z b1.hi.z⟩⟩

/-- One axis of the slab loop body: divides with IEEE semantics, takes
`std::min`/`std::max`, and narrows the accumulated `[t_min, t_max]`. -/
def slab_axis (bmin bmax o d : ℚ) (acc : EQ × EQ) : EQ × EQ :=
  let t0 := EQ.stdmin (EQ.ediv (bmin - o) d) (EQ.ediv (bmax - o) d)
  let t1 := EQ.stdmax (EQ.ediv (bmin - o) d) (EQ.ediv (bmax - o) d)
  (EQ.stdmax t0 acc.1, EQ.stdmin t1 acc.2)

/-- `rt_aabb::hit`: the three-axis slab test; after each axis the code
returns false as soon as `t_max <= t_min` (note: non-strict). -/
def rt_aabb_hit (b : Aabb) (r : Ray) (t_min : ℚ) (t_max : EQ) : Bool :=
  let acc0 := (EQ.fin t_min, t_max)
  let acc1 := slab_axis b.lo.x b.hi.x r.orig.x r.dir.x acc0
  if EQ.ele acc1.2 acc1.1 then false
  else
    let acc2 := slab_axis b.lo.y b.hi.y r.orig.y r.dir.y acc1
    if EQ.ele acc2.2 acc2.1 then false
    else
      let acc3 := slab_axis b.lo.z b.hi.z r.orig.z r.dir.z acc2
      if EQ.ele acc3.2 acc3.1 then false
      else true

/-- `rt_aabb::longest_axis`. -/
def rt_aabb_longest_axis (b : Aabb) : ℕ :=
  let x := b.hi.x - b.lo.x
  let y := b.hi.y - b.lo.y
  let z := b.hi.z - b.lo.z
  if x > y ∧ x > z then 0 else if y > z then 1 else 2

/-- Per-axis padding of a near-flat box (from `rt_bvh::compute_bounds`):
if `max - min < 1e-6` on an axis, both faces are pushed out by `5e-7`. -/
def pad_axis (lo hi : ℚ) : ℚ × ℚ :=
  if hi - lo < 1 / 1000000 then (lo - 1 / 2000000, hi + 1 / 2000000) else (lo, hi)

/-- `rt_bvh::compute_bounds`: triangle boxes are the vertex extents padded
against zero extent; sphere boxes are `center ± radius`; the fallback for an
unknown type is the zero box (unreachable for `Prim`). -/
def compute_bounds (p : Prim) : Aabb :=
  match p with
  | Prim.tri v0 v1 v2 _ _ _ _ =>
    let px := pad_axis (min v0.x (min v1.x v2.x)) (max v0.x (max v1.x v2.x))
    let py := pad_axis (min v0.y (min v1.y v2.y)) (max v0.y (max v1.y v2.y))
    let pz := pad_axis (min v0.z (min v1.z v2.z)) (max v0.z (max v1.z v2.z))
    ⟨⟨px.1, py.1, pz.1⟩, ⟨px.2, py.2, pz.2⟩⟩
  | Prim.sph c rad _ =>
    ⟨⟨c.x - rad, c.y - rad, c.z - rad⟩, ⟨c.x + rad, c.y + rad, c.z + rad⟩⟩

/-- A BVH node (`rt_bvh_node`): either a leaf holding one primitive or an
internal node with two children; `build_tree` never produces half-empty
internal nodes, so the inductive carries both children. -/
inductive BVHTree where
  | leaf (bounds : Aabb) (obj : Prim)
  | node (bounds : Aabb) (left right : BVHTree)
  deriving Repr

/-- Insertion sort modelling `std::sort` with the strict comparator
`compute_bounds(a).min[axis] < compute_bounds(b).min[axis]`. -/
def insertOrd (lt : Prim → Prim → Bool) (x : Prim) : List Prim → List Prim
  | [] => [x]
  | y :: ys => if lt x y then x :: y :: ys else y :: insertOrd lt x ys

def sortObjects (lt : Prim → Prim → Bool) : List Prim → List Prim
  | [] => []
  | x :: xs => insertOrd lt x (sortObjects lt xs)

/-- The BVH build comparator along `axis`. -/
def bvh_lt (axis : ℕ) (a b : Prim) : Bool :=
  (compute_bounds a).lo.idx axis < (compute_bounds b).lo.idx axis

theorem insertOrd_length (lt : Prim → Prim → Bool) (x : Prim) (l : List Prim) :
    (insertOrd lt x l).length = l.length + 1 := by
  induction l with
  | nil => rfl
  | cons y ys ih =>
    simp only [insertOrd]
    split
    · simp
    · simp [ih]

theorem sortObjects_length (lt : Prim → Prim → Bool) (l : List Prim) :
    (sortObjects lt l).length = l.length := by
  induction l with
  | nil => rfl
  | cons x xs ih => simp [sortObjects, insertOrd_length, ih]

/-- Combined bounds of a range (the loop at the top of `build_tree`). -/
def combine_all (p : Prim) (rest : List Prim) : Aabb :=
  rest.foldl (fun b q => rt_aabb_combine b (compute_bounds q)) (compute_bounds p)

/-- `rt_bvh::build_tree` on a (non-empty) range: a single object becomes a
leaf; otherwise the range is sorted along the longest axis of its combined
bounds and split at the midpoint index `span / 2`.  The `[]` case is
unreachable: the `rt_bvh` constructor only calls `build_tree` on non-empty
ranges and the split point satisfies `1 ≤ mid < span`. -/
def build_tree : List Prim → BVHTree
  | [] => BVHTree.leaf ⟨Vec3q.zero, Vec3q.zero⟩ (Prim.sph Vec3q.zero 0 0)
  | [p] => BVHTree.leaf (compute_bounds p) p
  | p :: q :: rest =>
    let bounds := combine_all p (q :: rest)
    let axis := rt_aabb_longest_axis bounds
    let sorted := sortObjects (bvh_lt axis) (p :: q :: rest)
    let mid := (p :: q :: rest).length / 2
    BVHTree.node bounds (build_tree (sorted.take mid)) (build_tree (sorted.drop mid))
termination_by l => l.length
decreasing_by
  all_goals simp only [List.length_take, List.length_drop, List.length_cons, sortObjects_length]
  all_goals omega

/-- `rt_bvh::hit_node`: reject on the box test, test the leaf primitive
directly, or recurse into both children, narrowing the right child's upper
bound to the left child's hit parameter when the left child hit. -/
def hit_node (sq : ℚ → ℚ) : BVHTree → Ray → ℚ → EQ → Option HitRec
  | BVHTree.leaf b obj, r, t_min, t_max =>
    if rt_aabb_hit b r t_min t_max then prim_hit sq obj r t_min t_max else none
  | BVHTree.node b l ri, r, t_min, t_max =>
    if rt_aabb_hit b r t_min t_max then
      match hit_node sq l r t_min t_max with
      | some recL =>
        match hit_node sq ri r t_min (EQ.fin recL.t) with
        | some recR => some recR
        | none => some recL
      | none => hit_node sq ri r t_min t_max
    else none

/-- `rt_bvh` construction plus `rt_bvh::hit`: an empty object list leaves the
root null, and `hit` then reports no hit. -/
def rt_bvh_hit (sq : ℚ → ℚ) (objects : List Prim) (r : Ray) (t_min : ℚ)
    (t_max : EQ) : Option HitRec :=
  match objects with
  | [] => none
  | _ => hit_node sq (build_tree objects) r t_min t_max

/-!
## Recursive shading (`RealtimeRayTracer::ray_color`)

Materials are virtual (`rt_material::scatter`); the dispatch is modelled by an
environment `mats` mapping a material handle to its scatter function, which
returns `none` when the material does not scatter and otherwise the
attenuation color and the scattered ray.  A null `bvh_world` is `none`.
-/

def Scatter : Type := Ray → Vec3q → Vec3q → Option (Vec3q × Ray)

/-- `rt_bvh::hit` through a possibly-null `bvh_world` pointer: the code guards
with `bvh_world && bvh_world->hit(...)`. -/
def bvh_world_hit (sq : ℚ → ℚ) (world : Option BVHTree) (r : Ray)
    (t_min : ℚ) (t_max : EQ) : Option HitRec :=
  match world with
  | none => none
  | some tree => hit_node sq tree r t_min t_max

/-- `RealtimeRayTracer::ray_color(r, depth)`: black at `depth <= 0`; nearest
BVH hit in `[0.001, ∞)`; attenuated recursion through the scattered ray, or
black when the material does not scatter or the ray hits nothing. -/
def ray_color (sq : ℚ → ℚ) (mats : ℕ → Scatter) (world : Option BVHTree)
    (r : Ray) (depth : ℤ) : Vec3q :=
  if depth ≤ 0 then Vec3q.zero
  else
    match bvh_world_hit sq world r (1 / 1000) EQ.pinf with
    | some rec0 =>
      match mats rec0.mat r rec0.p rec0.normal with
      | some (attenuation, scattered) =>
        (ray_color sq mats world scattered (depth - 1)).cmul attenuation
      | none => Vec3q.zero
    | none => Vec3q.zero
termination_by depth.toNat
decreasing_by omega

/-!
## Real-time tile scheduler and adaptive quality (`raytracing.cpp`)

`RealtimeRayTracer`'s scheduling state.  The framebuffers are not modelled;
`render_one_tile` instead reports the rectangle of low-resolution pixels it
writes, and coverage is stated over those rectangles.  The wall-clock tile
time is an input of each step.
-/

structure RTState where
  rt_width : ℕ
  rt_height : ℕ
  tile_size : ℕ
  current_tile_x : ℕ
  current_tile_y : ℕ
  total_tiles_x : ℕ
  total_tiles_y : ℕ
  is_active : Bool
  quality_level : ℕ
  samples_per_pixel : ℕ
  max_depth : ℕ
  adaptive_quality : Bool
  average_frame_time : ℚ
  performance_samples : ℕ
  deriving DecidableEq, Repr

/-- `RealtimeRayTracer::advance_tile`. -/
def advance_tile (s : RTState) : RTState :=
  let x := s.current_tile_x + 1
  if x ≥ s.total_tiles_x then
    let y := s.current_tile_y + 1
    if y ≥ s.total_tiles_y then
      { s with current_tile_x := 0, current_tile_y := 0 }
    else
      { s with current_tile_x := 0, current_tile_y := y }
  else
    { s with current_tile_x := x }

/-- `RealtimeRayTracer::reset_tiles` (framebuffer clears are not modelled). -/
def reset_tiles (s : RTState) : RTState :=
  { s with current_tile_x := 0, current_tile_y := 0 }

/-- `RealtimeRayTracer::update_quality_settings`: the fixed level table and
the tile-count recomputation.  The `switch` has no default, so a level
outside 1-4 leaves the settings unchanged. -/
def update_quality_settings (s : RTState) : RTState :=
  let s :=
    if s.quality_level = 1 then
      { s with samples_per_pixel := 1, max_depth := 2, tile_size := 32 }
    else if s.quality_level = 2 then
      { s with samples_per_pixel := 1, max_depth := 3, tile_size := 16 }
    else if s.quality_level = 3 then
      { s with samples_per_pixel := 2, max_depth := 4, tile_size := 8 }
    else if s.quality_level = 4 then
      { s with samples_per_pixel := 4, max_depth := 6, tile_size := 8 }
    else s
  { s with
    total_tiles_x := (s.rt_width + s.tile_size - 1) / s.tile_size,
    total_tiles_y := (s.rt_height + s.tile_size - 1) / s.tile_size }

/-- `RealtimeRayTracer::increase_quality`. -/
def increase_quality (s : RTState) : RTState :=
  if s.quality_level < 4 then
    reset_tiles (update_quality_settings { s with quality_level := s.quality_level + 1 })
  else s

/-- `RealtimeRayTracer::decrease_quality`. -/
def decrease_quality (s : RTState) : RTState :=
  if s.quality_level > 1 then
    reset_tiles (update_quality_settings { s with quality_level := s.quality_level - 1 })
  else s

/-- `RealtimeRayTracer::update_performance_stats`: exponential moving average
with `alpha = 1 / min(60, performance_samples)` after incrementing the
sample counter. -/
def update_performance_stats (s : RTState) (tile_time : ℚ) : RTState :=
  let n := s.performance_samples + 1
  let alpha : ℚ := 1 / (min 60 n : ℕ)
  { s with
    performance_samples := n,
    average_frame_time := s.average_frame_time * (1 - alpha) + tile_time * alpha }

/-- The fixed target tile time (`target_tile_time = 2.0f`, milliseconds). -/
def target_tile_time : ℚ := 2

/-- `RealtimeRayTracer::adjust_quality_based_on_performance`: the 2x / 0.5x
hysteresis band around the target. -/
def adjust_quality_based_on_performance (s : RTState) : RTState :=
  if s.average_frame_time > target_tile_time * 2 ∧ s.quality_level > 1 then
    decrease_quality s
  else if s.average_frame_time < target_tile_time * (1 / 2) ∧ s.quality_level < 4 then
    increase_quality s
  else s

/-- The half-open pixel rectangle `[x0, x1) x [y0, y1)` a tile writes. -/
structure TileRect where
  x0 : ℕ
  y0 : ℕ
  x1 : ℕ
  y1 : ℕ
  deriving DecidableEq, Repr

def TileRect.contains (rect : TileRect) (x y : ℕ) : Prop :=
  rect.x0 ≤ x ∧ x < rect.x1 ∧ rect.y0 ≤ y ∧ y < rect.y1

/-- `RealtimeRayTracer::render_one_tile`: inactive is a no-op; otherwise, if
the cursor row is in range, ray-trace the cursor tile (reported as the
written rectangle, clamped to the buffer) and advance the cursor; then update
the moving average with the measured tile time and, if adaptive quality is
enabled, adjust the quality level. -/
def render_one_tile (s : RTState) (tile_time : ℚ) : RTState × Option TileRect :=
  if ¬s.is_active then (s, none)
  else
    let step :=
      if s.current_tile_y < s.total_tiles_y then
        let tile_start_x := s.current_tile_x * s.tile_size
        let tile_start_y := s.current_tile_y * s.tile_size
        let rect : TileRect :=
          ⟨tile_start_x, tile_start_y,
           min (tile_start_x + s.tile_size) s.rt_width,
           min (tile_start_y + s.tile_size) s.rt_height⟩
        (advance_tile s, some rect)
      else (s, none)
    let s2 := update_performance_stats step.1 tile_time
    let s3 := if s2.adaptive_quality then adjust_quality_based_on_performance s2 else s2
    (s3, step.2)

/-- Iterated `render_one_tile` under a stream of measured tile times:
state before call `k`. -/
def rt_steps (s : RTState) (times : ℕ → ℚ) : ℕ → RTState
  | 0 => s
  | k + 1 => (render_one_tile (rt_steps s times k) (times k)).1

/-- The rectangle written by call `k` (`none` if nothing was written). -/
def rt_written (s : RTState) (times : ℕ → ℚ) (k : ℕ) : Option TileRect :=
  (render_one_tile (rt_steps s times k) (times k)).2

/-!
## Model: vertex mutation and blend shapes (`model.cpp`)

`std::map<std::string, ...>` members are modelled as association lists with
unique keys; `operator[]` reads use the map's default `0.0f` when the key is
absent (the default-insertion side effect does not change any looked-up
value).  C++ `int` indices are `ℤ`.
-/

structure BModel where
  verts : List Vec3q
  originalVerts : List Vec3q
  hasBackup : Bool
  blendShapes : List (String × List Vec3q)
  blendWeights : List (String × ℚ)
  deriving DecidableEq, Repr

/-- Association-list write-or-insert, modelling `map[key] = value`. -/
def assocSet {α : Type} (l : List (String × α)) (key : String) (v : α) :
    List (String × α) :=
  match l with
  | [] => [(key, v)]
  | (k, w) :: rest => if k = key then (k, v) :: rest else (k, w) :: assocSet rest key v

/-- Association-list read with the `std::map` value-initialised default,
modelling `blendWeights[name]` inside `applyBlendShapes`. -/
def weightOf (l : List (String × ℚ)) (key : String) : ℚ :=
  ((l.lookup key).getD 0)

/-- `Model::setVertex`: bounds-checked write. -/
def setVertex (m : BModel) (i : ℤ) (newPos : Vec3q) : BModel :=
  if 0 ≤ i ∧ i < (m.verts.length : ℤ) then
    { m with verts := m.verts.set i.toNat newPos }
  else m

/-- `Model::updateVertex`: bounds-checked additive offset. -/
def updateVertex (m : BModel) (i : ℤ) (offset : Vec3q) : BModel :=
  if 0 ≤ i ∧ i < (m.verts.length : ℤ) then
    { m with verts := m.verts.set i.toNat ((m.verts.getD i.toNat Vec3q.zero).add offset) }
  else m

/-- `Model::backupOriginalVertices`. -/
def backupOriginalVertices (m : BModel) : BModel :=
  { m with originalVerts := m.verts, hasBackup := true }

/-- `Model::addBlendShape`: rejected outright on a vertex-count mismatch,
otherwise stores the target set and a zero weight. -/
def addBlendShape (m : BModel) (shapeName : String) (targetVertices : List Vec3q) :
    BModel :=
  if targetVertices.length ≠ m.verts.length then m
  else
    { m with
      blendShapes := assocSet m.blendShapes shapeName targetVertices,
      blendWeights := assocSet m.blendWeights shapeName 0 }

/-- `Model::setBlendWeight`: only for an existing shape, clamping the weight
into `[0, 1]` via `max(0, min(1, weight))`. -/
def setBlendWeight (m : BModel) (shapeName : String) (weight : ℚ) : BModel :=
  if (m.blendShapes.lookup shapeName).isSome then
    { m with blendWeights := assocSet m.blendWeights shapeName (max 0 (min 1 weight)) }
  else m

/-- The inner loop of `applyBlendShapes` for one shape with positive weight:
`verts_[i] = verts_[i] + (targetVerts[i] - originalVerts_[i]) * weight`. -/
def applyOneShape (verts target original : List Vec3q) (weight : ℚ) : List Vec3q :=
  (List.range verts.length).map fun i =>
    (verts.getD i Vec3q.zero).add
      (Vec3q.smul weight ((target.getD i Vec3q.zero).sub (original.getD i Vec3q.zero)))

/-- `Model::applyBlendShapes`: back up on demand, restart from the original
vertices, then accumulate every shape whose weight is `> 0`. -/
def applyBlendShapes (m : BModel) : BModel :=
  let m := if ¬m.hasBackup then backupOriginalVertices m else m
  let verts :=
    m.blendShapes.foldl
      (fun acc shape =>
        let weight := weightOf m.blendWeights shape.1
        if weight > 0 then applyOneShape acc shape.2 m.originalVerts weight else acc)
      m.originalVerts
  { m with verts := verts }

/-!
## Scene graph: node deletion (`Scene.cpp`)

Node identity (C++ pointer equality, used for the selection check) is
modelled by a numeric id carried by each node; the selection is the id of the
selected node.
-/

inductive SNode where
  | mk (id : ℕ) (name : String) (children : List SNode)

def SNode.id : SNode → ℕ
  | mk i _ _ => i

def SNode.name : SNode → String
  | mk _ n _ => n

def SNode.children : SNode → List SNode
  | mk _ _ cs => cs

structure SceneG where
  rootNode : SNode
  selectedNode : Option ℕ

mutual

/-- `SceneNode::findDescendant`: direct children first, then the children's
subtrees in order (`findDescendantList` is the second loop of the C++ code,
with its first-match short-circuit). -/
def findDescendant : SNode → String → Option SNode
  | SNode.mk _ _ cs, nodeName =>
    match cs.find? (fun c => c.name = nodeName) with
    | some c => some c
    | none => findDescendantList cs nodeName

def findDescendantList : List SNode → String → Option SNode
  | [], _ => none
  | c :: cs, nodeName =>
    match findDescendant c nodeName with
    | some found => some found
    | none => findDescendantList cs nodeName

end

/-- Detach the node `findDescendant` finds: remove the first direct child with
the name, else recurse into the children in order (mirroring
`findNode` + `parent->removeChild(name)` + `delete node`).  Returns the new
subtree and the removed node's id. -/
def deleteDescendant (n : SNode) (nodeName : String) : Option (SNode × ℕ) :=
  match n with
  | SNode.mk i nm cs =>
    match deleteFromChildren cs nodeName with
    | some (cs', rid) => some (SNode.mk i nm cs', rid)
    | none => none
where
  /-- First try removing a direct child by name; otherwise recurse into each
  child in order and replace the first successful subtree. -/
  deleteFromChildren : List SNode → String → Option (List SNode × ℕ)
    | [], _ => none
    | c :: cs, nodeName =>
      if c.name = nodeName then some (cs, c.id)
      else
        match deleteFromChildren cs nodeName with
        | some (cs', rid) => some (c :: cs', rid)
        | none =>
          match deleteDescendant c nodeName with
          | some (c', rid) => some (c' :: cs, rid)
          | none => none

/-- `Scene::findNode`: the root by name, else a descendant search. -/
def findNode (s : SceneG) (nodeName : String) : Option SNode :=
  if s.rootNode.name = nodeName then some s.rootNode
  else findDescendant s.rootNode nodeName

/-- `Scene::deleteNode`: refuse `"Root"`; refuse a missing node or one with
no parent (only the root has none); otherwise clear the selection if it
pointed at the node, detach it from its parent and destroy it. -/
def deleteNode (s : SceneG) (nodeName : String) : SceneG × Bool :=
  if nodeName = "Root" then (s, false)
  else if s.rootNode.name = nodeName then (s, false)
  else
    match deleteDescendant s.rootNode nodeName with
    | none => (s, false)
    | some (root', rid) =>
      ({ rootNode := root',
         selectedNode := if s.selectedNode = some rid then none else s.selectedNode },
       true)

/-- A sequence of `deleteNode` calls (each call's scene feeds the next). -/
def deleteNodeSeq (s : SceneG) (names : List String) : SceneG :=
  names.foldl (fun sc nm => (deleteNode sc nm).1) s

/-!
## Second-pass shadow-mapping fragment shader (`shaders.h`)
-/

structure Vec2q where
  u : ℚ
  v : ℚ
  deriving DecidableEq, Repr

structure Vec4q where
  x : ℚ
  y : ℚ
  z : ℚ
  w : ℚ
  deriving DecidableEq, Repr

def Vec4q.dot (a b : Vec4q) : ℚ := a.x * b.x + a.y * b.y + a.z * b.z + a.w * b.w

/-- A 4x4 matrix by rows. -/
structure Mat4 where
  r0 : Vec4q
  r1 : Vec4q
  r2 : Vec4q
  r3 : Vec4q
  deriving DecidableEq, Repr

def Mat4.mulVec (m : Mat4) (v : Vec4q) : Vec4q :=
  ⟨m.r0.dot v, m.r1.dot v, m.r2.dot v, m.r3.dot v⟩

/-- `embed<4>` of a 3-vector with the default fill value `1`. -/
def embed4 (v : Vec3q) : Vec4q := ⟨v.x, v.y, v.z, 1⟩

/-- `proj<3>` of a 4-vector. -/
def proj3 (v : Vec4q) : Vec3q := ⟨v.x, v.y, v.z⟩

/-- C++ `(int)` cast of a float: truncation toward zero. -/
def icast (q : ℚ) : ℤ := if 0 ≤ q then ⌊q⌋ else -⌊-q⌋

/-- `Vec3f::normalize` with the square root supplied by the oracle. -/
def normalize3 (sq : ℚ → ℚ) (v : Vec3q) : Vec3q := v.sdiv (sq v.length_squared)

/-- Everything `ShadowMappingShader::fragment` reads: the three uniform
matrices, the interpolated varyings (as the three per-vertex columns), the
light direction, the shadow buffer (by linear index) with its dimensions, the
model's texture lookups, and the irrational-function oracles. -/
structure ShaderEnv where
  uniform_M : Mat4
  uniform_MIT : Mat4
  uniform_Mshadow : Mat4
  varying_uv0 : Vec2q
  varying_uv1 : Vec2q
  varying_uv2 : Vec2q
  varying_tri0 : Vec3q
  varying_tri1 : Vec3q
  varying_tri2 : Vec3q
  light_dir : Vec3q
  width : ℤ
  height : ℤ
  shadowbuffer : ℤ → ℚ
  normalMap : Vec2q → Vec3q
  specularMap : Vec2q → ℚ
  diffuseMap : Vec2q → Vec3q
  sq : ℚ → ℚ
  powO : ℚ → ℚ → ℚ

/-- `varying_tri * bar`. -/
def triInterp (e : ShaderEnv) (bar : Vec3q) : Vec3q :=
  (Vec3q.smul bar.x e.varying_tri0).add
    ((Vec3q.smul bar.y e.varying_tri1).add (Vec3q.smul bar.z e.varying_tri2))

/-- `varying_uv * bar`. -/
def uvInterp (e : ShaderEnv) (bar : Vec3q) : Vec2q :=
  ⟨bar.x * e.varying_uv0.u + bar.y * e.varying_uv1.u + bar.z * e.varying_uv2.u,
   bar.x * e.varying_uv0.v + bar.y * e.varying_uv1.v + bar.z * e.varying_uv2.v⟩

/-- The shadow-buffer point: `sb_p = uniform_Mshadow * embed<4>(varying_tri*bar)`
followed by the perspective divide `sb_p / sb_p[3]`. -/
def sbPoint (e : ShaderEnv) (bar : Vec3q) : Vec4q :=
  let p := e.uniform_Mshadow.mulVec (embed4 (triInterp e bar))
  ⟨p.x / p.w, p.y / p.w, p.z / p.w, p.w / p.w⟩

/-- The shadow factor: `1.0` outside the buffer, else
`0.3 + 0.7 * (sb_p[2] <= shadowbuffer[idx] + 43.34)`. -/
def shadowFactor (e : ShaderEnv) (bar : Vec3q) : ℚ :=
  let sb := sbPoint e bar
  let shadow_x := icast sb.x
  let shadow_y := icast sb.y
  if 0 ≤ shadow_x ∧ shadow_x < e.width ∧ 0 ≤ shadow_y ∧ shadow_y < e.height then
    let idx := shadow_x + shadow_y * e.width
    3 / 10 + 7 / 10 * (if sb.z ≤ e.shadowbuffer idx + 4334 / 100 then 1 else 0)
  else 1

/-- The shaded normal `n` of the fragment. -/
def fragN (e : ShaderEnv) (bar : Vec3q) : Vec3q :=
  normalize3 e.sq (proj3 (e.uniform_MIT.mulVec (embed4 (e.normalMap (uvInterp e bar)))))

/-- The transformed light vector `l` of the fragment. -/
def fragL (e : ShaderEnv) : Vec3q :=
  normalize3 e.sq (proj3 (e.uniform_M.mulVec (embed4 e.light_dir)))

/-- The reflected vector `r = normalize(n * (n.l * 2) - l)`. -/
def fragR (e : ShaderEnv) (bar : Vec3q) : Vec3q :=
  normalize3 e.sq
    ((Vec3q.smul ((fragN e bar).dot (fragL e) * 2) (fragN e bar)).sub (fragL e))

/-- `spec = pow(max(r.z, 0), specular-map sample)`. -/
def fragSpec (e : ShaderEnv) (bar : Vec3q) : ℚ :=
  e.powO (max (fragR e bar).z 0) (e.specularMap (uvInterp e bar))

/-- `diff = max(0, n.l)`. -/
def fragDiff (e : ShaderEnv) (bar : Vec3q) : ℚ :=
  max 0 ((fragN e bar).dot (fragL e))

/-- `ShadowMappingShader::fragment`: magenta for out-of-range UVs, green for
an all-black diffuse sample, else per-channel
`min(20 + c[i] * shadow * (0.8 * diff + 0.3 * spec), 255)` truncated into the
byte framebuffer. -/
def shadow_fragment (e : ShaderEnv) (bar : Vec3q) : Vec3q :=
  let shadow := shadowFactor e bar
  let uv := uvInterp e bar
  if uv.u < 0 ∨ uv.u > 1 ∨ uv.v < 0 ∨ uv.v > 1 then ⟨255, 0, 255⟩
  else
    let spec := fragSpec e bar
    let diff := fragDiff e bar
    let c := e.diffuseMap uv
    if c.x = 0 ∧ c.y = 0 ∧ c.z = 0 then ⟨0, 255, 0⟩
    else
      ⟨(icast (min (20 + c.x * shadow * (8 / 10 * diff + 3 / 10 * spec)) 255) : ℤ),
       (icast (min (20 + c.y * shadow * (8 / 10 * diff + 3 / 10 * spec)) 255) : ℤ),
       (icast (min (20 + c.z * shadow * (8 / 10 * diff + 3 / 10 * spec)) 255) : ℤ)⟩

/-!
## Shared concrete oracles and inputs for witnesses and counterexamples
-/

/-- A square-root oracle that is exact at `0` (the only point where the
degenerate-geometry claims consult it) and nonnegative everywhere. -/
def sqZ : ℚ → ℚ := fun _ => 0

/-!
## C9 / C10: Model error handling
-/

/-- C9: `Model::addBlendShape` with a target vertex list whose size differs
from the model's vertex count is rejected: the blend shape is not added and
the whole model (shape map, weight map, vertex array) is left unchanged. -/
theorem addBlendShape_mismatch_rejected (m : BModel) (shapeName : String)
    (targetVertices : List Vec3q)
    (h : targetVertices.length ≠ m.verts.length) :
    addBlendShape m shapeName targetVertices = m := by
  simp [addBlendShape, h]

theorem addBlendShape_mismatch_rejected_witness :
    addBlendShape ⟨[Vec3q.zero], [], false, [], []⟩ "smile" [] =
      ⟨[Vec3q.zero], [], false, [], []⟩ :=
  addBlendShape_mismatch_rejected _ _ _ (by decide)

/-- C10: `Model::setVertex` and `Model::updateVertex` are bounds-checked
no-ops for every index outside `[0, nverts)`: the model is unchanged and no
out-of-range vertex element is read or written. -/
theorem vertex_mutation_oob_noop (m : BModel) (i : ℤ) (newPos offset : Vec3q)
    (h : i < 0 ∨ (m.verts.length : ℤ) ≤ i) :
    setVertex m i newPos = m ∧ updateVertex m i offset = m := by
  have hc : ¬(0 ≤ i ∧ i < (m.verts.length : ℤ)) := by omega
  constructor <;> simp [setVertex, updateVertex, hc]

theorem vertex_mutation_oob_noop_witness :
    setVertex ⟨[Vec3q.zero], [], false, [], []⟩ (-1) ⟨1, 2, 3⟩ =
        ⟨[Vec3q.zero], [], false, [], []⟩ ∧
      updateVertex ⟨[Vec3q.zero], [], false, [], []⟩ (-1) ⟨1, 2, 3⟩ =
        ⟨[Vec3q.zero], [], false, [], []⟩ :=
  vertex_mutation_oob_noop _ _ _ _ (by decide)

/-!
## C8: Scene::deleteNode error handling
-/

mutual

/-- All node names occurring in a subtree (the node itself and every
descendant); "names no existing node" is `name ∉ nodeNames root`. -/
def nodeNames : SNode → List String
  | SNode.mk _ n cs => n :: nodeNamesList cs

def nodeNamesList : List SNode → List String
  | [] => []
  | c :: cs => nodeNames c ++ nodeNamesList cs

end

theorem mem_nodeNamesList (cs : List SNode) (nm : String) :
    nm ∈ nodeNamesList cs ↔ ∃ c ∈ cs, nm ∈ nodeNames c := by
  induction cs with
  | nil => simp [nodeNamesList]
  | cons c rest ih => simp [nodeNamesList, ih]

mutual

theorem deleteDescendant_eq_none (n : SNode) (nm : String)
    (h : nm ∉ nodeNames n) : deleteDescendant n nm = none := by
  match n with
  | SNode.mk i name cs =>
    have hcs : deleteDescendant.deleteFromChildren cs nm = none :=
      deleteFromChildren_eq_none cs nm (by
        intro c hc hmem
        simp only [nodeNames, List.mem_cons] at h
        push_neg at h
        exact h.2 ((mem_nodeNamesList cs nm).mpr ⟨c, hc, hmem⟩))
    simp [deleteDescendant, hcs]

theorem deleteFromChildren_eq_none (cs : List SNode) (nm : String)
    (h : ∀ c ∈ cs, nm ∉ nodeNames c) :
    deleteDescendant.deleteFromChildren cs nm = none := by
  match cs with
  | [] => rfl
  | c :: rest =>
    have h1 : nm ∉ nodeNames c := h c (by simp)
    have h2 : deleteDescendant.deleteFromChildren rest nm = none :=
      deleteFromChildren_eq_none rest nm (fun d hd => h d (by simp [hd]))
    have h3 : deleteDescendant c nm = none := deleteDescendant_eq_none c nm h1
    have h4 : ¬(c.name = nm) := by
      intro hc
      apply h1
      cases c with
      | mk i0 n0 cs0 => simp only [SNode.name] at hc; simp [nodeNames, hc]
    simp [deleteDescendant.deleteFromChildren, h2, h3, h4]

end

theorem deleteDescendant_preserves_node (n : SNode) (nm : String) (n' : SNode)
    (rid : ℕ) (h : deleteDescendant n nm = some (n', rid)) :
    n'.id = n.id ∧ n'.name = n.name := by
  cases n with
  | mk i name cs =>
    simp only [deleteDescendant] at h
    cases hd : deleteDescendant.deleteFromChildren cs nm with
    | none => simp [hd] at h
    | some pr =>
      simp [hd] at h
      cases h with
      | intro h1 h2 => subst h1; simp [SNode.id, SNode.name]

theorem deleteNode_preserves_root (s : SceneG) (nm : String) :
    ((deleteNode s nm).1).rootNode.id = s.rootNode.id ∧
      ((deleteNode s nm).1).rootNode.name = s.rootNode.name := by
  unfold deleteNode
  split
  · exact ⟨rfl, rfl⟩
  · split
    · exact ⟨rfl, rfl⟩
    · cases hd : deleteDescendant s.rootNode nm with
      | none => simp
      | some pr =>
        have := deleteDescendant_preserves_node s.rootNode nm pr.1 pr.2 (by simpa using hd)
        simp [this]

/-- C8: `Scene::deleteNode(name)` returns `false` and leaves the scene
completely unchanged (root still present and named "Root", selection
unchanged) when `name` is `"Root"` or names no existing node; and no
sequence of `deleteNode` calls can ever delete the root node (its identity
and name are preserved by every sequence). -/
theorem deleteNode_rejects_root_and_missing :
    (∀ (s : SceneG) (nm : String), s.rootNode.name = "Root" →
        (nm = "Root" ∨ nm ∉ nodeNames s.rootNode) →
        deleteNode s nm = (s, false)) ∧
      (∀ (s : SceneG) (names : List String),
        (deleteNodeSeq s names).rootNode.id = s.rootNode.id ∧
          (deleteNodeSeq s names).rootNode.name = s.rootNode.name) := by
  constructor
  · intro s nm hroot h
    cases h with
    | inl h =>
      simp [deleteNode, h]
    | inr h =>
      have hr : ¬(nm = "Root") := by
        intro he
        apply h
        cases hs : s.rootNode with
        | mk i n cs =>
          have : n = "Root" := by rw [hs] at hroot; simpa [SNode.name] using hroot
          simp [nodeNames, this, he]
      have hrn : ¬(s.rootNode.name = nm) := by
        intro he
        apply h
        cases hs : s.rootNode with
        | mk i n cs =>
          rw [hs] at he
          simp only [SNode.name] at he
          simp [nodeNames, he]
      have hd : deleteDescendant s.rootNode nm = none :=
        deleteDescendant_eq_none s.rootNode nm h
      simp [deleteNode, hr, hrn, hd]
  · intro s names
    induction names generalizing s with
    | nil => exact ⟨rfl, rfl⟩
    | cons nm rest ih =>
      have h1 := deleteNode_preserves_root s nm
      have h2 := ih (deleteNode s nm).1
      simp only [deleteNodeSeq, List.foldl_cons] at h2 ⊢
      exact ⟨h2.1.trans h1.1, h2.2.trans h1.2⟩

theorem deleteNode_rejects_root_and_missing_witness :
    deleteNode ⟨SNode.mk 0 "Root" [SNode.mk 1 "Cube" []], some 1⟩ "Root" =
      (⟨SNode.mk 0 "Root" [SNode.mk 1 "Cube" []], some 1⟩, false) :=
  deleteNode_rejects_root_and_missing.1 _ "Root" rfl (Or.inl rfl)

/-!
## C5: Blend-shape semantics
-/

theorem applyOneShape_weight_one (target original : List Vec3q)
    (hlen : target.length = original.length) :
    applyOneShape original target original 1 = target := by
  apply List.ext_getElem
  · simp [applyOneShape, hlen]
  · intro i h1 h2
    simp only [applyOneShape, List.getElem_map, List.getElem_range]
    have hi : i < original.length := by simpa [applyOneShape] using h1
    have hit : i < target.length := by omega
    rw [List.getD_eq_getElem _ _ hit, List.getD_eq_getElem _ _ hi]
    cases original[i] with
    | mk ox oy oz =>
      cases target[i] with
      | mk tx ty tz =>
        simp [Vec3q.add, Vec3q.sub, Vec3q.smul]

theorem applyBlendShapes_of_backup (m : BModel) (hb : m.hasBackup = true) :
    (applyBlendShapes m).verts =
      m.blendShapes.foldl
        (fun acc shape =>
          let weight := weightOf m.blendWeights shape.1
          if weight > 0 then applyOneShape acc shape.2 m.originalVerts weight else acc)
        m.originalVerts := by
  simp [applyBlendShapes, hb]

theorem applyBlendShapes_fold_skip (shapes : List (String × List Vec3q))
    (weights : List (String × ℚ)) (original acc : List Vec3q)
    (h : ∀ shape ∈ shapes, ¬(weightOf weights shape.1 > 0)) :
    shapes.foldl
      (fun acc shape =>
        let weight := weightOf weights shape.1
        if weight > 0 then applyOneShape acc shape.2 original weight else acc)
      acc = acc := by
  induction shapes generalizing acc with
  | nil => rfl
  | cons shape rest ih =>
    have h1 := h shape (by simp)
    simp only [List.foldl_cons, if_neg h1]
    exact ih acc (fun s hs => h s (by simp [hs]))

/-- C5: with a backed-up model, (a) if every blend shape's stored weight reads
`0`, `applyBlendShapes` leaves every vertex at its original position
(exactly, hence within any epsilon); (b) if one shape's weight reads `1` and
every other shape's weight reads `0`, `applyBlendShapes` sets the vertices
exactly to that shape's target positions; (c) `setBlendWeight` clamps every
stored weight into `[0, 1]` regardless of the input value. -/
theorem blend_shape_invariants :
    (∀ m : BModel, m.hasBackup = true →
        (∀ shape ∈ m.blendShapes, weightOf m.blendWeights shape.1 = 0) →
        (applyBlendShapes m).verts = m.originalVerts) ∧
      (∀ (m : BModel) (s : String) (target : List Vec3q), m.hasBackup = true →
        (s, target) ∈ m.blendShapes →
        (m.blendShapes.map Prod.fst).Nodup →
        target.length = m.originalVerts.length →
        weightOf m.blendWeights s = 1 →
        (∀ shape ∈ m.blendShapes, shape.1 ≠ s → weightOf m.blendWeights shape.1 = 0) →
        (applyBlendShapes m).verts = target) ∧
      (∀ (m : BModel) (s : String) (w : ℚ),
        (∀ p ∈ m.blendWeights, 0 ≤ p.2 ∧ p.2 ≤ 1) →
        ∀ p ∈ (setBlendWeight m s w).blendWeights, 0 ≤ p.2 ∧ p.2 ≤ 1) := by
  refine ⟨?_, ?_, ?_⟩
  · intro m hb hw
    rw [applyBlendShapes_of_backup m hb]
    exact applyBlendShapes_fold_skip _ _ _ _ (fun s hs => by simp [hw s hs])
  · intro m s target hb hmem hnodup hlen hw1 hw0
    rw [applyBlendShapes_of_backup m hb]
    obtain ⟨pre, post, hsplit⟩ := List.append_of_mem hmem
    have hnd : ((pre ++ (s, target) :: post).map Prod.fst).Nodup := by
      rw [hsplit] at hnodup; exact hnodup
    rw [List.map_append, List.nodup_append] at hnd
    have hpre : ∀ shape ∈ pre, shape.1 ≠ s := by
      intro shape hs he
      exact hnd.2.2 (List.mem_map_of_mem Prod.fst hs) (by simp [he])
    have hpost : ∀ shape ∈ post, shape.1 ≠ s := by
      intro shape hs he
      have hx := hnd.2.1
      simp only [List.map_cons, List.nodup_cons] at hx
      exact hx.1 (by rw [← he]; exact List.mem_map_of_mem Prod.fst hs)
    rw [hsplit, List.foldl_append]
    rw [applyBlendShapes_fold_skip pre m.blendWeights m.originalVerts m.originalVerts
      (fun sh hs => by simp [hw0 sh (by rw [hsplit]; simp [hs]) (hpre sh hs)])]
    simp only [List.foldl_cons, hw1]
    rw [if_pos (by norm_num : (1 : ℚ) > 0), applyOneShape_weight_one _ _ hlen]
    exact applyBlendShapes_fold_skip post m.blendWeights m.originalVerts target
      (fun sh hs => by simp [hw0 sh (by rw [hsplit]; simp [hs]) (hpost sh hs)])
  · intro m s w hall
    unfold setBlendWeight
    split
    · intro p hp
      simp only at hp
      have : ∀ (l : List (String × ℚ)), (∀ q0 ∈ l, 0 ≤ q0.2 ∧ q0.2 ≤ 1) →
          p ∈ assocSet l s (max 0 (min 1 w)) → 0 ≤ p.2 ∧ p.2 ≤ 1 := by
        intro l
        induction l with
        | nil =>
          intro _ hmem
          simp only [assocSet, List.mem_singleton] at hmem
          subst hmem
          constructor
          · exact le_max_left 0 _
          · simp only [max_le_iff]
            exact ⟨by norm_num, min_le_left 1 w⟩
        | cons kv rest ih =>
          intro hl hmem
          simp only [assocSet] at hmem
          split at hmem
          · rcases List.mem_cons.mp hmem with h | h
            · subst h
              refine ⟨le_max_left 0 _, ?_⟩
              simp only [max_le_iff]
              exact ⟨by norm_num, min_le_left 1 w⟩
            · exact hl _ (by simp [h])
          · rcases List.mem_cons.mp hmem with h | h
            · subst h
              exact hl kv (by simp)
            · exact ih (fun q0 hq => hl q0 (by simp [hq])) h
      exact this m.blendWeights hall hp
    · exact hall

theorem blend_shape_invariants_witness :
    (applyBlendShapes
        ⟨[Vec3q.zero], [Vec3q.zero], true, [("smile", [⟨1, 1, 1⟩])], [("smile", 0)]⟩).verts =
      [Vec3q.zero] :=
  blend_shape_invariants.1 _ rfl (by decide)

/-!
## C4: Adaptive-quality controller
-/

/-- The moving-average update formula of `update_performance_stats`. -/
def ema_next (avg : ℚ) (n : ℕ) (t : ℚ) : ℚ :=
  avg * (1 - 1 / ((min 60 (n + 1) : ℕ) : ℚ)) + t * (1 / ((min 60 (n + 1) : ℕ) : ℚ))

theorem update_quality_settings_perf (s : RTState) :
    (update_quality_settings s).quality_level = s.quality_level ∧
      (update_quality_settings s).average_frame_time = s.average_frame_time ∧
      (update_quality_settings s).performance_samples = s.performance_samples ∧
      (update_quality_settings s).is_active = s.is_active ∧
      (update_quality_settings s).adaptive_quality = s.adaptive_quality := by
  unfold update_quality_settings
  split_ifs <;> exact ⟨rfl, rfl, rfl, rfl, rfl⟩

theorem decrease_quality_perf (s : RTState) :
    (decrease_quality s).quality_level =
        (if 1 < s.quality_level then s.quality_level - 1 else s.quality_level) ∧
      (decrease_quality s).average_frame_time = s.average_frame_time ∧
      (decrease_quality s).performance_samples = s.performance_samples ∧
      (decrease_quality s).is_active = s.is_active ∧
      (decrease_quality s).adaptive_quality = s.adaptive_quality := by
  unfold decrease_quality reset_tiles
  split_ifs with h
  · have := update_quality_settings_perf { s with quality_level := s.quality_level - 1 }
    simp only [gt_iff_lt] at h
    simp_all
  · simp only [gt_iff_lt] at h
    simp_all

theorem increase_quality_perf (s : RTState) :
    (increase_quality s).quality_level =
        (if s.quality_level < 4 then s.quality_level + 1 else s.quality_level) ∧
      (increase_quality s).average_frame_time = s.average_frame_time ∧
      (increase_quality s).performance_samples = s.performance_samples ∧
      (increase_quality s).is_active = s.is_active ∧
      (increase_quality s).adaptive_quality = s.adaptive_quality := by
  unfold increase_quality reset_tiles
  split_ifs with h
  · have := update_quality_settings_perf { s with quality_level := s.quality_level + 1 }
    simp_all
  · simp_all

theorem adjust_quality_perf (s : RTState) :
    (adjust_quality_based_on_performance s).quality_level =
        (if target_tile_time * 2 < s.average_frame_time ∧ 1 < s.quality_level then
          s.quality_level - 1
        else if s.average_frame_time < target_tile_time * (1 / 2) ∧ s.quality_level < 4 then
          s.quality_level + 1
        else s.quality_level) ∧
      (adjust_quality_based_on_performance s).average_frame_time = s.average_frame_time ∧
      (adjust_quality_based_on_performance s).performance_samples = s.performance_samples ∧
      (adjust_quality_based_on_performance s).is_active = s.is_active ∧
      (adjust_quality_based_on_performance s).adaptive_quality = s.adaptive_quality := by
  unfold adjust_quality_based_on_performance
  split_ifs with h1 h2
  · obtain ⟨d1, d2, d3, d4, d5⟩ := decrease_quality_perf s
    refine ⟨?_, d2, d3, d4, d5⟩
    rw [d1, if_pos h1.2]
  · obtain ⟨d1, d2, d3, d4, d5⟩ := increase_quality_perf s
    refine ⟨?_, d2, d3, d4, d5⟩
    rw [d1, if_pos h2.2]
  · exact ⟨rfl, rfl, rfl, rfl, rfl⟩

theorem advance_tile_perf (s : RTState) :
    (advance_tile s).quality_level = s.quality_level ∧
      (advance_tile s).average_frame_time = s.average_frame_time ∧
      (advance_tile s).performance_samples = s.performance_samples ∧
      (advance_tile s).is_active = s.is_active ∧
      (advance_tile s).adaptive_quality = s.adaptive_quality := by
  simp only [advance_tile]
  split_ifs <;> exact ⟨rfl, rfl, rfl, rfl, rfl⟩

/-- One `render_one_tile` call, viewed through the performance/quality
fields, when the tracer is active and adaptive quality is on. -/
theorem render_one_tile_perf_view (s : RTState) (t : ℚ)
    (ha : s.is_active = true) (had : s.adaptive_quality = true) :
    (render_one_tile s t).1.is_active = true ∧
      (render_one_tile s t).1.adaptive_quality = true ∧
      (render_one_tile s t).1.performance_samples = s.performance_samples + 1 ∧
      (render_one_tile s t).1.average_frame_time =
        ema_next s.average_frame_time s.performance_samples t ∧
      (render_one_tile s t).1.quality_level =
        (if target_tile_time * 2 < ema_next s.average_frame_time s.performance_samples t ∧
            1 < s.quality_level then
          s.quality_level - 1
        else if ema_next s.average_frame_time s.performance_samples t <
              target_tile_time * (1 / 2) ∧ s.quality_level < 4 then
          s.quality_level + 1
        else s.quality_level) := by
  unfold render_one_tile
  rw [if_neg (by simp [ha])]
  obtain ⟨a1, a2, a3, a4, a5⟩ := advance_tile_perf s
  by_cases hrow : s.current_tile_y < s.total_tiles_y
  · simp only [if_pos hrow]
    set s1 := advance_tile s with hs1
    have hs2 : (update_performance_stats s1 t).adaptive_quality = true := by
      simp [update_performance_stats, a5, had]
    simp only [hs2, if_pos]
    obtain ⟨j1, j2, j3, j4, j5⟩ :=
      adjust_quality_perf (update_performance_stats s1 t)
    refine ⟨?_, ?_, ?_, ?_, ?_⟩
    · rw [j4]; simp [update_performance_stats, a4, ha]
    · rw [j5]; exact hs2
    · rw [j3]; simp [update_performance_stats, a3]
    · rw [j2]; simp [update_performance_stats, a2, a3, ema_next]
    · rw [j1]
      simp [update_performance_stats, a1, a2, a3, ema_next]
  · simp only [if_neg hrow]
    have hs2 : (update_performance_stats s t).adaptive_quality = true := by
      simp [update_performance_stats, had]
    simp only [hs2, if_pos]
    obtain ⟨j1, j2, j3, j4, j5⟩ :=
      adjust_quality_perf (update_performance_stats s t)
    refine ⟨?_, ?_, ?_, ?_, ?_⟩
    · rw [j4]; simp [update_performance_stats, ha]
    · rw [j5]; exact hs2
    · rw [j3]; simp [update_performance_stats]
    · rw [j2]; simp [update_performance_stats, ema_next]
    · rw [j1]
      simp [update_performance_stats, ema_next]

theorem ema_next_slow (avg : ℚ) (n : ℕ) (t : ℚ)
    (havg : target_tile_time * 2 < avg) (ht : target_tile_time * 2 < t) :
    target_tile_time * 2 < ema_next avg n t := by
  have hm : (1 : ℚ) ≤ ((min 60 (n + 1) : ℕ) : ℚ) := by
    have : 1 ≤ min 60 (n + 1) := le_min (by norm_num) (by omega)
    exact_mod_cast this
  set mq : ℚ := ((min 60 (n + 1) : ℕ) : ℚ) with hmq
  have halpha1 : 0 < 1 / mq := by positivity
  have halpha2 : 1 / mq ≤ 1 := by
    rw [div_le_one (by linarith)]
    exact hm
  have key : ema_next avg n t - target_tile_time * 2 =
      (avg - target_tile_time * 2) * (1 - 1 / mq) + (t - target_tile_time * 2) * (1 / mq) := by
    simp only [ema_next, ← hmq]
    ring
  nlinarith [mul_nonneg (le_of_lt (sub_pos.mpr havg)) (sub_nonneg.mpr halpha2),
    mul_pos (sub_pos.mpr ht) halpha1]

theorem ema_next_fast (avg : ℚ) (n : ℕ) (t : ℚ)
    (havg : avg < target_tile_time * (1 / 2)) (ht : t < target_tile_time * (1 / 2)) :
    ema_next avg n t < target_tile_time * (1 / 2) := by
  have hm : (1 : ℚ) ≤ ((min 60 (n + 1) : ℕ) : ℚ) := by
    have : 1 ≤ min 60 (n + 1) := le_min (by norm_num) (by omega)
    exact_mod_cast this
  set mq : ℚ := ((min 60 (n + 1) : ℕ) : ℚ) with hmq
  have halpha1 : 0 < 1 / mq := by positivity
  have halpha2 : 1 / mq ≤ 1 := by
    rw [div_le_one (by linarith)]
    exact hm
  have key : target_tile_time * (1 / 2) - ema_next avg n t =
      (target_tile_time * (1 / 2) - avg) * (1 - 1 / mq) +
        (target_tile_time * (1 / 2) - t) * (1 / mq) := by
    simp only [ema_next, ← hmq]
    ring
  nlinarith [mul_nonneg (le_of_lt (sub_pos.mpr havg)) (sub_nonneg.mpr halpha2),
    mul_pos (sub_pos.mpr ht) halpha1]

/-- Feeding a list of measured tile times through full `render_one_tile`
invocations. -/
def rt_feed (s : RTState) (times : List ℚ) : RTState :=
  times.foldl (fun st t => (render_one_tile st t).1) s

theorem rt_feed_slow (times : List ℚ) : ∀ s : RTState,
    s.is_active = true → s.adaptive_quality = true →
    1 ≤ s.quality_level → s.quality_level ≤ 4 →
    target_tile_time * 2 < s.average_frame_time →
    (∀ t ∈ times, target_tile_time * 2 < t) →
    (rt_feed s times).quality_level = max 1 (s.quality_level - times.length) ∧
      target_tile_time * 2 < (rt_feed s times).average_frame_time := by
  induction times with
  | nil =>
    intro s _ _ hq1 _ havg _
    refine ⟨?_, havg⟩
    simp only [rt_feed, List.foldl_nil, List.length_nil]
    omega
  | cons t ts ih =>
    intro s ha had hq1 hq4 havg ht
    obtain ⟨p1, p2, p3, p4, p5⟩ := render_one_tile_perf_view s t ha had
    have hband : target_tile_time * 2 < ema_next s.average_frame_time s.performance_samples t :=
      ema_next_slow _ _ _ havg (ht t (by simp))
    have hnfast : ¬(ema_next s.average_frame_time s.performance_samples t <
        target_tile_time * (1 / 2) ∧ s.quality_level < 4) := by
      rintro ⟨hf, -⟩
      rw [target_tile_time] at hband hf
      linarith
    have hq' : (render_one_tile s t).1.quality_level = max 1 (s.quality_level - 1) := by
      rw [p5]
      by_cases hq : 1 < s.quality_level
      · rw [if_pos ⟨hband, hq⟩]; omega
      · rw [if_neg (fun hc => hq hc.2), if_neg hnfast]; omega
    have hfeed : rt_feed s (t :: ts) = rt_feed (render_one_tile s t).1 ts := by
      simp [rt_feed]
    have hih := ih (render_one_tile s t).1 p1 p2 (by omega) (by omega)
      (by rw [p4]; exact hband) (fun u hu => ht u (by simp [hu]))
    rw [hfeed]
    refine ⟨?_, hih.2⟩
    rw [hih.1, hq']
    simp only [List.length_cons]
    omega

theorem rt_feed_fast (times : List ℚ) : ∀ s : RTState,
    s.is_active = true → s.adaptive_quality = true →
    1 ≤ s.quality_level → s.quality_level ≤ 4 →
    s.average_frame_time < target_tile_time * (1 / 2) →
    (∀ t ∈ times, t < target_tile_time * (1 / 2)) →
    (rt_feed s times).quality_level = min 4 (s.quality_level + times.length) ∧
      (rt_feed s times).average_frame_time < target_tile_time * (1 / 2) := by
  induction times with
  | nil =>
    intro s _ _ _ hq4 havg _
    refine ⟨?_, havg⟩
    simp only [rt_feed, List.foldl_nil, List.length_nil]
    omega
  | cons t ts ih =>
    intro s ha had hq1 hq4 havg ht
    obtain ⟨p1, p2, p3, p4, p5⟩ := render_one_tile_perf_view s t ha had
    have hband : ema_next s.average_frame_time s.performance_samples t <
        target_tile_time * (1 / 2) :=
      ema_next_fast _ _ _ havg (ht t (by simp))
    have hnslow : ¬(target_tile_time * 2 <
        ema_next s.average_frame_time s.performance_samples t ∧ 1 < s.quality_level) := by
      rintro ⟨hf, -⟩
      rw [target_tile_time] at hband hf
      linarith
    have hq' : (render_one_tile s t).1.quality_level = min 4 (s.quality_level + 1) := by
      rw [p5, if_neg hnslow]
      by_cases hq : s.quality_level < 4
      · rw [if_pos ⟨hband, hq⟩]; omega
      · rw [if_neg (fun hc => hq hc.2)]; omega
    have hfeed : rt_feed s (t :: ts) = rt_feed (render_one_tile s t).1 ts := by
      simp [rt_feed]
    have hih := ih (render_one_tile s t).1 p1 p2 (by omega) (by omega)
      (by rw [p4]; exact hband) (fun u hu => ht u (by simp [hu]))
    rw [hfeed]
    refine ⟨?_, hih.2⟩
    rw [hih.1, hq']
    simp only [List.length_cons]
    omega

/-- C4: the adaptive-quality controller (a) decreases the quality level only
when the moving-average tile time exceeds twice the 2 ms target and increases
it only when the average is below half the target (a dead-zone band, not a
single threshold); (b) keeps `quality_level` in `1..4` under every controller
operation; (c) under a sustained sequence of slow tile times the level
decreases monotonically to the floor 1 (`max 1 (q - k)` after `k` calls) and
never rises while the average stays in the slow band; and (d) symmetrically
climbs to the ceiling 4 under sustained fast times. -/
theorem adaptive_quality_controller :
    (∀ s : RTState,
        (adjust_quality_based_on_performance s).quality_level =
          if target_tile_time * 2 < s.average_frame_time ∧ 1 < s.quality_level then
            s.quality_level - 1
          else if s.average_frame_time < target_tile_time * (1 / 2) ∧
              s.quality_level < 4 then
            s.quality_level + 1
          else s.quality_level) ∧
      (∀ s : RTState, 1 ≤ s.quality_level → s.quality_level ≤ 4 →
        (1 ≤ (adjust_quality_based_on_performance s).quality_level ∧
            (adjust_quality_based_on_performance s).quality_level ≤ 4) ∧
          (1 ≤ (increase_quality s).quality_level ∧
            (increase_quality s).quality_level ≤ 4) ∧
          (1 ≤ (decrease_quality s).quality_level ∧
            (decrease_quality s).quality_level ≤ 4)) ∧
      (∀ (s : RTState) (times : List ℚ),
        s.is_active = true → s.adaptive_quality = true →
        1 ≤ s.quality_level → s.quality_level ≤ 4 →
        target_tile_time * 2 < s.average_frame_time →
        (∀ t ∈ times, target_tile_time * 2 < t) →
        (rt_feed s times).quality_level = max 1 (s.quality_level - times.length) ∧
          target_tile_time * 2 < (rt_feed s times).average_frame_time) ∧
      (∀ (s : RTState) (times : List ℚ),
        s.is_active = true → s.adaptive_quality = true →
        1 ≤ s.quality_level → s.quality_level ≤ 4 →
        s.average_frame_time < target_tile_time * (1 / 2) →
        (∀ t ∈ times, t < target_tile_time * (1 / 2)) →
        (rt_feed s times).quality_level = min 4 (s.quality_level + times.length) ∧
          (rt_feed s times).average_frame_time < target_tile_time * (1 / 2)) := by
  refine ⟨fun s => (adjust_quality_perf s).1, ?_, ?_, ?_⟩
  · intro s h1 h4
    refine ⟨?_, ?_, ?_⟩
    · rw [(adjust_quality_perf s).1]
      split_ifs <;> omega
    · rw [(increase_quality_perf s).1]
      split_ifs <;> omega
    · rw [(decrease_quality_perf s).1]
      split_ifs <;> omega
  · exact fun s times ha had h1 h4 havg ht => rt_feed_slow times s ha had h1 h4 havg ht
  · exact fun s times ha had h1 h4 havg ht => rt_feed_fast times s ha had h1 h4 havg ht

theorem adaptive_quality_controller_witness :
    (rt_feed ⟨64, 64, 16, 0, 0, 4, 4, true, 3, 1, 3, true, 1667 / 100, 0⟩
          [10, 10]).quality_level =
        max 1 (3 - (2 : ℕ)) ∧
      target_tile_time * 2 <
        (rt_feed ⟨64, 64, 16, 0, 0, 4, 4, true, 3, 1, 3, true, 1667 / 100, 0⟩
            [10, 10]).average_frame_time :=
  adaptive_quality_controller.2.2.1
    ⟨64, 64, 16, 0, 0, 4, 4, true, 3, 1, 3, true, 1667 / 100, 0⟩ [10, 10]
    rfl rfl (by decide) (by decide) (by norm_num [target_tile_time])
    (by
      intro t htm
      have : t = 10 ∨ t = 10 ∧ False ∨ t ∈ ([] : List ℚ) := by
        simpa using htm
      rcases this with h | h | h
      · rw [h]; norm_num [target_tile_time]
      · exact absurd h.2 id
      · simp at h)

/-!
## C3: Tile scheduler coverage
-/

theorem advance_tile_geom (s : RTState) :
    (advance_tile s).rt_width = s.rt_width ∧
      (advance_tile s).rt_height = s.rt_height ∧
      (advance_tile s).tile_size = s.tile_size ∧
      (advance_tile s).total_tiles_x = s.total_tiles_x ∧
      (advance_tile s).total_tiles_y = s.total_tiles_y := by
  simp only [advance_tile]
  split_ifs <;> exact ⟨rfl, rfl, rfl, rfl, rfl⟩

/-- One scheduler step with the tracer active, adaptive quality off, and the
cursor row in range: geometry and flags are unchanged, the cursor advances by
`advance_tile`, and the call writes exactly the cursor tile's pixel
rectangle clamped to the buffer. -/
theorem render_one_tile_sched_view (s : RTState) (t : ℚ)
    (ha : s.is_active = true) (had : s.adaptive_quality = false)
    (hrow : s.current_tile_y < s.total_tiles_y) :
    (render_one_tile s t).1.rt_width = s.rt_width ∧
      (render_one_tile s t).1.rt_height = s.rt_height ∧
      (render_one_tile s t).1.tile_size = s.tile_size ∧
      (render_one_tile s t).1.total_tiles_x = s.total_tiles_x ∧
      (render_one_tile s t).1.total_tiles_y = s.total_tiles_y ∧
      (render_one_tile s t).1.is_active = true ∧
      (render_one_tile s t).1.adaptive_quality = false ∧
      (render_one_tile s t).1.current_tile_x = (advance_tile s).current_tile_x ∧
      (render_one_tile s t).1.current_tile_y = (advance_tile s).current_tile_y ∧
      (render_one_tile s t).2 =
        some ⟨s.current_tile_x * s.tile_size, s.current_tile_y * s.tile_size,
          min (s.current_tile_x * s.tile_size + s.tile_size) s.rt_width,
          min (s.current_tile_y * s.tile_size + s.tile_size) s.rt_height⟩ := by
  obtain ⟨a1, a2, a3, a4, a5⟩ := advance_tile_perf s
  obtain ⟨g1, g2, g3, g4, g5⟩ := advance_tile_geom s
  unfold render_one_tile
  rw [if_neg (by simp [ha])]
  simp only [if_pos hrow]
  have hs2 : (update_performance_stats (advance_tile s) t).adaptive_quality = false := by
    simp [update_performance_stats, a5, had]
  simp only [hs2, if_neg]
  simp [update_performance_stats, a4, a5, g1, g2, g3, g4, g5, ha, had]

theorem advance_tile_cursor (s : RTState) (k : ℕ)
    (hTx : 0 < s.total_tiles_x) (_hTy : 0 < s.total_tiles_y)
    (hk : k < s.total_tiles_x * s.total_tiles_y)
    (hx : s.current_tile_x = k % s.total_tiles_x)
    (hy : s.current_tile_y = k / s.total_tiles_x) :
    (advance_tile s).current_tile_x =
        ((k + 1) % (s.total_tiles_x * s.total_tiles_y)) % s.total_tiles_x ∧
      (advance_tile s).current_tile_y =
        ((k + 1) % (s.total_tiles_x * s.total_tiles_y)) / s.total_tiles_x := by
  set Tx := s.total_tiles_x with hTxdef
  set Ty := s.total_tiles_y with hTydef
  have hdm := Nat.div_add_mod k Tx
  set q := k / Tx with hq
  set r := k % Tx with hr
  have hrlt : r < Tx := Nat.mod_lt _ hTx
  have hqlt : q < Ty := by
    rw [hq, Nat.div_lt_iff_lt_mul hTx]
    calc k < Tx * Ty := hk
    _ = Ty * Tx := Nat.mul_comm _ _
  simp only [advance_tile, hx, hy, ← hq, ← hr]
  by_cases hwrapx : r + 1 ≥ Tx
  · have hrfull : r = Tx - 1 := by omega
    by_cases hwrapy : q + 1 ≥ Ty
    · have hqfull : q = Ty - 1 := by omega
      have hkfull : k + 1 = Tx * Ty := by
        have h1 : Tx * q + Tx = Tx * (q + 1) := by ring
        have h2 : Tx * (q + 1) = Tx * Ty := by rw [show q + 1 = Ty by omega]
        omega
      rw [if_pos hwrapx, if_pos hwrapy, hkfull, Nat.mod_self]
      simp
    · have hlt : k + 1 < Tx * Ty := by
        have h1 : k + 1 = Tx * (q + 1) := by
          have : Tx * q + Tx = Tx * (q + 1) := by ring
          omega
        have h2 : Tx * (q + 1) < Tx * Ty :=
          (Nat.mul_lt_mul_left hTx).mpr (by omega)
        omega
      have h1 : k + 1 = Tx * (q + 1) := by
        have : Tx * q + Tx = Tx * (q + 1) := by ring
        omega
      rw [if_pos hwrapx, if_neg hwrapy, Nat.mod_eq_of_lt hlt, h1,
        Nat.mul_mod_right, Nat.mul_div_cancel_left _ hTx]
      simp
  · have hlt : k + 1 < Tx * Ty := by
      have h1 : k + 1 ≤ Tx * q + Tx := by omega
      have h2 : Tx * q + Tx = Tx * (q + 1) := by ring
      have h3 : Tx * (q + 1) ≤ Tx * Ty := Nat.mul_le_mul_left Tx (by omega)
      omega
    have h1 : k + 1 = (r + 1) + Tx * q := by omega
    rw [if_neg hwrapx, Nat.mod_eq_of_lt hlt, h1, Nat.add_mul_mod_self_left,
      Nat.add_mul_div_left _ _ hTx, Nat.mod_eq_of_lt (by omega),
      Nat.div_eq_of_lt (by omega)]
    simp

theorem ceil_div_bounds (w ts : ℕ) (hts : 0 < ts) (hw : 0 < w) :
    0 < (w + ts - 1) / ts ∧ w ≤ ((w + ts - 1) / ts) * ts := by
  have hdm := Nat.mod_add_div' (w + ts - 1) ts
  have hlt : (w + ts - 1) % ts < ts := Nat.mod_lt _ hts
  constructor
  · exact Nat.div_pos (by omega) hts
  · omega

/-- C3: with the real-time tracer active, adaptive quality off, and a freshly
reset cursor, `render_one_tile` advances exactly one tile per call in
row-major order over the tile grid (the cursor before call `k` is
`((k mod TxTy) mod Tx, (k mod TxTy) div Tx)`, so the cursor wraps back to
`(0,0)` after the last tile), and after exactly
`total_tiles_x * total_tiles_y` calls every pixel `(x, y)` with
`x < rt_width`, `y < rt_height` has been written by some call. -/
theorem tile_scheduler_coverage (s : RTState) (times : ℕ → ℚ)
    (ha : s.is_active = true) (had : s.adaptive_quality = false)
    (hx0 : s.current_tile_x = 0) (hy0 : s.current_tile_y = 0)
    (hts : 0 < s.tile_size) (hw : 0 < s.rt_width) (hh : 0 < s.rt_height)
    (hTx : s.total_tiles_x = (s.rt_width + s.tile_size - 1) / s.tile_size)
    (hTy : s.total_tiles_y = (s.rt_height + s.tile_size - 1) / s.tile_size) :
    (∀ k : ℕ,
      (rt_steps s times k).current_tile_x =
          (k % (s.total_tiles_x * s.total_tiles_y)) % s.total_tiles_x ∧
        (rt_steps s times k).current_tile_y =
          (k % (s.total_tiles_x * s.total_tiles_y)) / s.total_tiles_x) ∧
      (∀ x < s.rt_width, ∀ y < s.rt_height,
        ∃ k < s.total_tiles_x * s.total_tiles_y, ∃ rect : TileRect,
          rt_written s times k = some rect ∧ rect.contains x y) := by
  obtain ⟨hTxpos, hwle⟩ := ceil_div_bounds s.rt_width s.tile_size hts hw
  obtain ⟨hTypos, hhle⟩ := ceil_div_bounds s.rt_height s.tile_size hts hh
  rw [← hTx] at hTxpos hwle
  rw [← hTy] at hTypos hhle
  have hTpos : 0 < s.total_tiles_x * s.total_tiles_y := Nat.mul_pos hTxpos hTypos
  set Tx := s.total_tiles_x with hTxd
  set Ty := s.total_tiles_y with hTyd
  set T := Tx * Ty with hTd
  have inv : ∀ k : ℕ,
      (rt_steps s times k).rt_width = s.rt_width ∧
        (rt_steps s times k).rt_height = s.rt_height ∧
        (rt_steps s times k).tile_size = s.tile_size ∧
        (rt_steps s times k).total_tiles_x = Tx ∧
        (rt_steps s times k).total_tiles_y = Ty ∧
        (rt_steps s times k).is_active = true ∧
        (rt_steps s times k).adaptive_quality = false ∧
        (rt_steps s times k).current_tile_x = (k % T) % Tx ∧
        (rt_steps s times k).current_tile_y = (k % T) / Tx := by
    intro k
    induction k with
    | zero =>
      refine ⟨rfl, rfl, rfl, rfl, rfl, ha, had, ?_, ?_⟩ <;>
        simp [rt_steps, hx0, hy0]
    | succ k ih =>
      obtain ⟨i1, i2, i3, i4, i5, i6, i7, i8, i9⟩ := ih
      have hmodlt : k % T < T := Nat.mod_lt _ hTpos
      have hrow : (rt_steps s times k).current_tile_y <
          (rt_steps s times k).total_tiles_y := by
        rw [i9, i5]
        rw [Nat.div_lt_iff_lt_mul hTxpos]
        calc k % T < T := hmodlt
        _ = Ty * Tx := Nat.mul_comm _ _
      obtain ⟨s1, s2, s3, s4, s5, s6, s7, s8, s9, _⟩ :=
        render_one_tile_sched_view (rt_steps s times k) (times k) i6 i7 hrow
      have hc := advance_tile_cursor (rt_steps s times k) (k % T)
        (by rw [i4]; exact hTxpos) (by rw [i5]; exact hTypos)
        (by rw [i4, i5]; exact hmodlt) (by rw [i8, i4]) (by rw [i9, i4])
      have hmod : (k % T + 1) % T = (k + 1) % T := by
        conv_rhs => rw [Nat.add_mod]
        rw [Nat.add_mod (k % T) 1 T, Nat.mod_mod_of_dvd k dvd_rfl]
      have hstep : rt_steps s times (k + 1) =
          (render_one_tile (rt_steps s times k) (times k)).1 := rfl
      rw [i4, i5] at hc
      refine ⟨by rw [hstep, s1, i1], by rw [hstep, s2, i2], by rw [hstep, s3, i3],
        by rw [hstep, s4, i4], by rw [hstep, s5, i5], by rw [hstep]; exact s6,
        by rw [hstep]; exact s7, ?_, ?_⟩
      · rw [hstep, s8, hc.1, hmod]
      · rw [hstep, s9, hc.2, hmod]
  refine ⟨fun k => ⟨(inv k).2.2.2.2.2.2.2.1, (inv k).2.2.2.2.2.2.2.2⟩, ?_⟩
  intro x hxw y hyh
  set i := x / s.tile_size with hi
  set j := y / s.tile_size with hj
  have hiTx : i < Tx := by
    rw [hi, Nat.div_lt_iff_lt_mul hts]
    calc x < s.rt_width := hxw
    _ ≤ Tx * s.tile_size := hwle
  have hjTy : j < Ty := by
    rw [hj, Nat.div_lt_iff_lt_mul hts]
    calc y < s.rt_height := hyh
    _ ≤ Ty * s.tile_size := hhle
  refine ⟨i + Tx * j, ?_, ?_⟩
  · have h1 : (j + 1) * Tx ≤ Ty * Tx := Nat.mul_le_mul_right Tx (by omega)
    have h2 : (j + 1) * Tx = j * Tx + Tx := by ring
    have h3 : Tx * j = j * Tx := Nat.mul_comm _ _
    have h4 : T = Ty * Tx := Nat.mul_comm _ _
    omega
  · obtain ⟨i1, i2, i3, i4, i5, i6, i7, i8, i9⟩ := inv (i + Tx * j)
    have hklt : i + Tx * j < T := by
      have h1 : (j + 1) * Tx ≤ Ty * Tx := Nat.mul_le_mul_right Tx (by omega)
      have h2 : (j + 1) * Tx = j * Tx + Tx := by ring
      have h3 : Tx * j = j * Tx := Nat.mul_comm _ _
      have h4 : T = Ty * Tx := Nat.mul_comm _ _
      omega
    have hmodk : (i + Tx * j) % T = i + Tx * j := Nat.mod_eq_of_lt hklt
    have hcx : (rt_steps s times (i + Tx * j)).current_tile_x = i := by
      rw [i8, hmodk, Nat.add_mul_mod_self_left, Nat.mod_eq_of_lt hiTx]
    have hcy : (rt_steps s times (i + Tx * j)).current_tile_y = j := by
      rw [i9, hmodk, Nat.add_mul_div_left _ _ hTxpos, Nat.div_eq_of_lt hiTx]
      omega
    have hrow : (rt_steps s times (i + Tx * j)).current_tile_y <
        (rt_steps s times (i + Tx * j)).total_tiles_y := by
      rw [hcy, i5]; exact hjTy
    obtain ⟨_, _, _, _, _, _, _, _, _, s10⟩ :=
      render_one_tile_sched_view (rt_steps s times (i + Tx * j)) (times (i + Tx * j))
        i6 i7 hrow
    refine ⟨_, by rw [rt_written, s10, hcx, hcy, i1, i2, i3], ?_⟩
    have hdx : x % s.tile_size + i * s.tile_size = x := by
      rw [hi]; exact Nat.mod_add_div' x s.tile_size
    have hmx : x % s.tile_size < s.tile_size := Nat.mod_lt _ hts
    have hdy : y % s.tile_size + j * s.tile_size = y := by
      rw [hj]; exact Nat.mod_add_div' y s.tile_size
    have hmy : y % s.tile_size < s.tile_size := Nat.mod_lt _ hts
    have hxlo : i * s.tile_size ≤ x := by omega
    have hylo : j * s.tile_size ≤ y := by omega
    refine ⟨hxlo, ?_, hylo, ?_⟩ <;> simp only [TileRect.contains] <;> omega

theorem tile_scheduler_coverage_witness :
    ∃ k < 2 * 2, ∃ rect : TileRect,
      rt_written ⟨3, 3, 2, 0, 0, 2, 2, true, 2, 1, 3, false, 1667 / 100, 0⟩
          (fun _ => 1) k = some rect ∧ rect.contains 2 2 :=
  (tile_scheduler_coverage ⟨3, 3, 2, 0, 0, 2, 2, true, 2, 1, 3, false, 1667 / 100, 0⟩
      (fun _ => 1) rfl rfl rfl rfl (by decide) (by decide) (by decide) (by decide)
      (by decide)).2 2 (by decide) 2 (by decide)

/-!
## C6: Recursive shading semantics
-/

/-- C6: `ray_color` returns black immediately at depth `<= 0`; with positive
depth it queries the BVH on `[0.001, ∞)` and returns black when the ray hits
nothing, black when the hit material does not scatter, and otherwise the
material's attenuation multiplied componentwise into the recursive color of
the scattered ray at depth - 1. -/
theorem ray_color_semantics (sq : ℚ → ℚ) (mats : ℕ → Scatter)
    (world : Option BVHTree) (r : Ray) (depth : ℤ) :
    (depth ≤ 0 → ray_color sq mats world r depth = Vec3q.zero) ∧
      (0 < depth → bvh_world_hit sq world r (1 / 1000) EQ.pinf = none →
        ray_color sq mats world r depth = Vec3q.zero) ∧
      (∀ rec0 : HitRec, 0 < depth →
        bvh_world_hit sq world r (1 / 1000) EQ.pinf = some rec0 →
        (mats rec0.mat r rec0.p rec0.normal = none →
          ray_color sq mats world r depth = Vec3q.zero) ∧
        (∀ (attenuation : Vec3q) (scattered : Ray),
          mats rec0.mat r rec0.p rec0.normal = some (attenuation, scattered) →
          ray_color sq mats world r depth =
            (ray_color sq mats world scattered (depth - 1)).cmul attenuation)) := by
  refine ⟨?_, ?_, ?_⟩
  · intro h
    rw [ray_color, if_pos h]
  · intro h hmiss
    rw [ray_color, if_neg (by omega), hmiss]
  · intro rec0 h hhit
    constructor
    · intro hms
      rw [ray_color, if_neg (by omega), hhit]
      simp only [hms]
    · intro attenuation scattered hms
      rw [ray_color, if_neg (by omega), hhit]
      simp only [hms]

theorem ray_color_semantics_witness :
    ray_color sqZ (fun _ _ _ _ => none) none ⟨Vec3q.zero, ⟨1, 0, 0⟩⟩ 0 = Vec3q.zero :=
  (ray_color_semantics sqZ (fun _ _ _ _ => none) none ⟨Vec3q.zero, ⟨1, 0, 0⟩⟩ 0).1
    (by decide)

/-!
## C2: Shadow-mapping fragment shader
-/

/-- C2: for a fragment whose remapped shadow-buffer coordinates fall inside
the buffer (and which reaches the shading path), the fragment is shadowed
(shadow factor `0.3`) exactly when its light-space depth exceeds the stored
light depth-buffer value at that pixel by more than the fixed bias `43.34`;
otherwise the shadow factor is `1.0`; and the diffuse-plus-specular
contribution of each channel is scaled by exactly that factor in the final
color. -/
theorem shadow_fragment_shadowing (e : ShaderEnv) (bar : Vec3q)
    (hin : 0 ≤ icast (sbPoint e bar).x ∧ icast (sbPoint e bar).x < e.width ∧
      0 ≤ icast (sbPoint e bar).y ∧ icast (sbPoint e bar).y < e.height)
    (huv : ¬((uvInterp e bar).u < 0 ∨ (uvInterp e bar).u > 1 ∨
      (uvInterp e bar).v < 0 ∨ (uvInterp e bar).v > 1))
    (hc : ¬((e.diffuseMap (uvInterp e bar)).x = 0 ∧
      (e.diffuseMap (uvInterp e bar)).y = 0 ∧ (e.diffuseMap (uvInterp e bar)).z = 0)) :
    (shadowFactor e bar = 3 / 10 ↔
      (sbPoint e bar).z >
        e.shadowbuffer (icast (sbPoint e bar).x + icast (sbPoint e bar).y * e.width) +
          4334 / 100) ∧
      (shadowFactor e bar = 1 ↔
        ¬((sbPoint e bar).z >
          e.shadowbuffer (icast (sbPoint e bar).x + icast (sbPoint e bar).y * e.width) +
            4334 / 100)) ∧
      shadow_fragment e bar =
        (⟨(icast (min (20 + (e.diffuseMap (uvInterp e bar)).x *
              (if (sbPoint e bar).z >
                  e.shadowbuffer
                    (icast (sbPoint e bar).x + icast (sbPoint e bar).y * e.width) +
                    4334 / 100 then (3 : ℚ) / 10 else 1) *
              (8 / 10 * fragDiff e bar + 3 / 10 * fragSpec e bar)) 255) : ℤ),
          (icast (min (20 + (e.diffuseMap (uvInterp e bar)).y *
              (if (sbPoint e bar).z >
                  e.shadowbuffer
                    (icast (sbPoint e bar).x + icast (sbPoint e bar).y * e.width) +
                    4334 / 100 then (3 : ℚ) / 10 else 1) *
              (8 / 10 * fragDiff e bar + 3 / 10 * fragSpec e bar)) 255) : ℤ),
          (icast (min (20 + (e.diffuseMap (uvInterp e bar)).z *
              (if (sbPoint e bar).z >
                  e.shadowbuffer
                    (icast (sbPoint e bar).x + icast (sbPoint e bar).y * e.width) +
                    4334 / 100 then (3 : ℚ) / 10 else 1) *
              (8 / 10 * fragDiff e bar + 3 / 10 * fragSpec e bar)) 255) : ℤ)⟩ : Vec3q) := by
  have hsf : shadowFactor e bar =
      (if (sbPoint e bar).z >
          e.shadowbuffer (icast (sbPoint e bar).x + icast (sbPoint e bar).y * e.width) +
            4334 / 100 then (3 : ℚ) / 10 else 1) := by
    rw [shadowFactor]
    simp only [if_pos hin]
    by_cases hz : (sbPoint e bar).z ≤
        e.shadowbuffer (icast (sbPoint e bar).x + icast (sbPoint e bar).y * e.width) +
          4334 / 100
    · rw [if_pos hz, if_neg (by simpa using hz)]
      norm_num
    · rw [if_neg hz, if_pos (by simpa using hz)]
      norm_num
  refine ⟨?_, ?_, ?_⟩
  · rw [hsf]
    split_ifs with hz
    · simp [hz]
    · constructor
      · intro h1; norm_num at h1
      · intro h1; exact absurd h1 hz
  · rw [hsf]
    split_ifs with hz
    · constructor
      · intro h1; norm_num at h1
      · intro h1; exact absurd hz h1
    · simp [hz]
  · rw [shadow_fragment]
    simp only [if_neg huv, if_neg hc, hsf]

/-- The identity 4x4 matrix, for concrete shader evaluations. -/
def id4 : Mat4 := ⟨⟨1, 0, 0, 0⟩, ⟨0, 1, 0, 0⟩, ⟨0, 0, 1, 0⟩, ⟨0, 0, 0, 1⟩⟩

/-- A concrete shader environment: identity transforms, a `10 x 10` zeroed
shadow buffer, constant textures. -/
def fragEnv0 : ShaderEnv :=
  { uniform_M := id4
    uniform_MIT := id4
    uniform_Mshadow := id4
    varying_uv0 := ⟨1 / 2, 1 / 2⟩
    varying_uv1 := ⟨1 / 2, 1 / 2⟩
    varying_uv2 := ⟨1 / 2, 1 / 2⟩
    varying_tri0 := ⟨5, 5, 100⟩
    varying_tri1 := ⟨5, 5, 100⟩
    varying_tri2 := ⟨5, 5, 100⟩
    light_dir := ⟨0, 0, 1⟩
    width := 10
    height := 10
    shadowbuffer := fun _ => 0
    normalMap := fun _ => ⟨0, 0, 1⟩
    specularMap := fun _ => 1
    diffuseMap := fun _ => ⟨100, 100, 100⟩
    sq := sqZ
    powO := fun _ _ => 0 }

theorem shadow_fragment_shadowing_witness :
    shadow_fragment fragEnv0 ⟨1, 0, 0⟩ = ⟨20, 20, 20⟩ := by
  have h := (shadow_fragment_shadowing fragEnv0 ⟨1, 0, 0⟩
    (by norm_num [icast, sbPoint, triInterp, Mat4.mulVec, Vec4q.dot, embed4,
      fragEnv0, id4, Vec3q.smul, Vec3q.add])
    (by norm_num [uvInterp, fragEnv0])
    (by norm_num [uvInterp, fragEnv0])).2.2
  rw [h]
  norm_num [icast, sbPoint, triInterp, Mat4.mulVec, Vec4q.dot, embed4, fragEnv0,
    id4, Vec3q.smul, Vec3q.add, fragDiff, fragSpec, fragN, fragL, fragR,
    normalize3, Vec3q.sdiv, Vec3q.length_squared, Vec3q.dot, Vec3q.sub, proj3,
    uvInterp, sqZ]

/-!
## C7: Degenerate geometry in the intersection tests
-/

theorem Vec3q.length_squared_nonneg (v : Vec3q) : 0 ≤ v.length_squared := by
  simp only [Vec3q.length_squared]
  nlinarith [sq_nonneg v.x, sq_nonneg v.y, sq_nonneg v.z]

theorem Vec3q.eq_zero_of_length_squared_eq_zero (v : Vec3q)
    (h : v.length_squared = 0) : v = Vec3q.zero := by
  cases v with
  | mk a b c =>
    simp only [Vec3q.length_squared] at h
    simp only [Vec3q.zero, Vec3q.mk.injEq]
    refine ⟨?_, ?_, ?_⟩ <;> nlinarith [sq_nonneg a, sq_nonneg b, sq_nonneg c]

theorem Vec3q.length_squared_pos (v : Vec3q) (h : v ≠ Vec3q.zero) :
    0 < v.length_squared :=
  lt_of_le_of_ne (Vec3q.length_squared_nonneg v)
    (fun he => h (Vec3q.eq_zero_of_length_squared_eq_zero v he.symm))

/-- The Lagrange identity specialised to the sphere quadratic: the negated
discriminant of a zero-radius sphere is the squared norm of
`direction x oc`. -/
theorem sphere_disc_lagrange (d oc : Vec3q) :
    d.dot oc * d.dot oc - d.length_squared * (oc.length_squared - 0 * 0) =
      -((d.cross oc).length_squared) := by
  simp only [Vec3q.dot, Vec3q.length_squared, Vec3q.cross]
  ring

theorem sphere_root_spec (t_min : ℚ) (t_max : EQ) (root1 root2 rt : ℚ)
    (h : sphere_root t_min t_max root1 root2 = some rt) :
    (rt = root1 ∨ rt = root2) ∧ t_min ≤ rt ∧ EQ.elt t_max (EQ.fin rt) = false := by
  unfold sphere_root at h
  split_ifs at h with h1 h2
  · simp only [Option.some.injEq] at h
    push_neg at h2
    subst h
    exact ⟨Or.inr rfl, h2.1, by simpa using h2.2⟩
  · simp only [Option.some.injEq] at h
    push_neg at h1
    subst h
    exact ⟨Or.inl rfl, h1.1, by simpa using h1.2⟩

/-- A zero-radius sphere reports a hit only when the ray passes exactly
through its center: the reported parameter lands on the center and satisfies
the interval guards. -/
theorem rt_sphere_hit_zero_radius (sq : ℚ → ℚ) (hsq0 : sq 0 = 0)
    (center : Vec3q) (mat : ℕ) (r : Ray) (hd : r.dir ≠ Vec3q.zero)
    (t_min : ℚ) (t_max : EQ) (rec0 : HitRec)
    (hhit : rt_sphere_hit sq center 0 mat r t_min t_max = some rec0) :
    r.at rec0.t = center ∧ t_min ≤ rec0.t ∧ EQ.elt t_max (EQ.fin rec0.t) = false := by
  unfold rt_sphere_hit at hhit
  set oc := center.sub r.orig with hoc
  set a := r.dir.length_squared with ha
  set hh := r.dir.dot oc with hhh
  have hlag := sphere_disc_lagrange r.dir oc
  rw [← ha, ← hhh] at hlag
  by_cases hneg : hh * hh - a * (oc.length_squared - 0 * 0) < 0
  · rw [if_pos hneg] at hhit
    exact absurd hhit (by simp)
  · rw [if_neg hneg] at hhit
    have hdisc0 : hh * hh - a * (oc.length_squared - 0 * 0) = 0 := by
      have h1 : 0 ≤ (r.dir.cross oc).length_squared :=
        Vec3q.length_squared_nonneg _
      have h2 := not_lt.mp hneg
      linarith [hlag]
    have hcross : r.dir.cross oc = Vec3q.zero := by
      apply Vec3q.eq_zero_of_length_squared_eq_zero
      linarith [hlag, hdisc0]
    rw [hdisc0, hsq0] at hhit
    have hapos : 0 < a := Vec3q.length_squared_pos r.dir hd
    simp only [sub_zero, add_zero] at hhit
    have hroot : ∀ t : ℚ, t = hh / a → r.at t = center := by
      intro t ht
      have hcx : r.dir.y * oc.z - r.dir.z * oc.y = 0 := by
        have := congrArg Vec3q.x hcross
        simpa [Vec3q.cross, Vec3q.zero] using this
      have hcy : r.dir.z * oc.x - r.dir.x * oc.z = 0 := by
        have := congrArg Vec3q.y hcross
        simpa [Vec3q.cross, Vec3q.zero] using this
      have hcz : r.dir.x * oc.y - r.dir.y * oc.x = 0 := by
        have := congrArg Vec3q.z hcross
        simpa [Vec3q.cross, Vec3q.zero] using this
      have hx : hh * r.dir.x = oc.x * a := by
        simp only [hhh, ha, Vec3q.dot, Vec3q.length_squared]
        linear_combination r.dir.y * hcz - r.dir.z * hcy
      have hy : hh * r.dir.y = oc.y * a := by
        simp only [hhh, ha, Vec3q.dot, Vec3q.length_squared]
        linear_combination r.dir.z * hcx - r.dir.x * hcz
      have hz : hh * r.dir.z = oc.z * a := by
        simp only [hhh, ha, Vec3q.dot, Vec3q.length_squared]
        linear_combination r.dir.x * hcy - r.dir.y * hcx
      have hocx : oc.x = center.x - r.orig.x := by rw [hoc]; rfl
      have hocy : oc.y = center.y - r.orig.y := by rw [hoc]; rfl
      have hocz : oc.z = center.z - r.orig.z := by rw [hoc]; rfl
      subst ht
      simp only [Ray.at, Vec3q.add, Vec3q.smul]
      have hane : a ≠ 0 := ne_of_gt hapos
      cases center with
      | mk cx cy cz =>
        simp only [Vec3q.mk.injEq]
        refine ⟨?_, ?_, ?_⟩
        · rw [div_mul_eq_mul_div, eq_comm, ← sub_eq_iff_eq_add']
          rw [eq_div_iff hane]
          simp only [hocx] at hx
          linarith [hx]
        · rw [div_mul_eq_mul_div, eq_comm, ← sub_eq_iff_eq_add']
          rw [eq_div_iff hane]
          simp only [hocy] at hy
          linarith [hy]
        · rw [div_mul_eq_mul_div, eq_comm, ← sub_eq_iff_eq_add']
          rw [eq_div_iff hane]
          simp only [hocz] at hz
          linarith [hz]
    rw [← hhh] at hhit
    cases hsr : sphere_root t_min t_max (hh / a) (hh / a) with
    | none =>
      rw [hsr] at hhit
      exact absurd hhit (by simp)
    | some rt =>
      rw [hsr] at hhit
      obtain ⟨hor, hlo, hhi⟩ := sphere_root_spec t_min t_max (hh / a) (hh / a) rt hsr
      have hrt : rt = hh / a := by rcases hor with h | h <;> exact h
      simp only [Option.some.injEq] at hhit
      have hrec : rec0.t = rt := by rw [← hhit]
      exact ⟨by rw [hrec]; exact hroot rt hrt, by rw [hrec]; exact hlo,
        by rw [hrec]; exact hhi⟩

/-- Scalar triple-product antisymmetry used by the zero-area argument. -/
theorem dot_cross_swap (a b c : Vec3q) : a.dot (b.cross c) = -(b.dot (a.cross c)) := by
  simp only [Vec3q.dot, Vec3q.cross]
  ring

/-- C7 (amended): every ray parallel to a triangle (Möller-Trumbore
determinant within `1e-8`) is rejected with no hit and no division by the
determinant; every zero-area triangle (degenerate edge cross product) yields
no hit for every ray; but a zero-radius sphere is *not* always a miss: it
reports a hit exactly on rays that pass through its center (see the
counterexample), and whenever it does report a hit for a ray with nonzero
direction, the reported parameter lies on the center and inside the query
interval. -/
theorem degenerate_geometry_handling :
    (∀ (v0 v1 v2 edge1 edge2 normal : Vec3q) (mat : ℕ) (r : Ray) (t_min : ℚ)
        (t_max : EQ),
        -(1 / 100000000) < edge1.dot (r.dir.cross edge2) ∧
          edge1.dot (r.dir.cross edge2) < 1 / 100000000 →
        rt_triangle_hit v0 v1 v2 edge1 edge2 normal mat r t_min t_max = none) ∧
      (∀ (sq : ℚ → ℚ) (v0 v1 v2 : Vec3q) (mat : ℕ) (r : Ray) (t_min : ℚ)
        (t_max : EQ),
        (v1.sub v0).cross (v2.sub v0) = Vec3q.zero →
        prim_hit sq (mk_rt_triangle sq v0 v1 v2 mat) r t_min t_max = none) ∧
      (∀ (sq : ℚ → ℚ), sq 0 = 0 →
        ∀ (center : Vec3q) (mat : ℕ) (r : Ray), r.dir ≠ Vec3q.zero →
        ∀ (t_min : ℚ) (t_max : EQ) (rec0 : HitRec),
        rt_sphere_hit sq center 0 mat r t_min t_max = some rec0 →
        r.at rec0.t = center ∧ t_min ≤ rec0.t ∧
          EQ.elt t_max (EQ.fin rec0.t) = false) := by
  refine ⟨?_, ?_, ?_⟩
  · intro v0 v1 v2 edge1 edge2 normal mat r t_min t_max h
    simp only [rt_triangle_hit]
    rw [if_pos h]
  · intro sq v0 v1 v2 mat r t_min t_max hdeg
    simp only [mk_rt_triangle, prim_hit]
    have ha : (v1.sub v0).dot (r.dir.cross (v2.sub v0)) = 0 := by
      rw [dot_cross_swap]
      have hswap : r.dir.dot ((v1.sub v0).cross (v2.sub v0)) = 0 := by
        rw [hdeg]
        simp [Vec3q.dot, Vec3q.zero]
      rw [hswap, neg_zero]
    simp only [rt_triangle_hit]
    rw [if_pos (by rw [ha]; norm_num)]
  · intro sq hsq0 center mat r hd t_min t_max rec0 hhit
    exact rt_sphere_hit_zero_radius sq hsq0 center mat r hd t_min t_max rec0 hhit

/-- The claim "every zero-radius sphere yields no hit for every ray" is false
on the code: a ray through the center of a zero-radius sphere is reported as
a hit (the degenerate discriminant `0` passes the `< 0` rejection), and the
hit-record normal is produced by the unguarded division by `radius = 0`. -/
theorem zero_radius_sphere_reports_hit :
    sqZ 0 = 0 ∧
      rt_sphere_hit sqZ ⟨1, 0, 0⟩ 0 7 ⟨Vec3q.zero, ⟨1, 0, 0⟩⟩ (1 / 1000) EQ.pinf =
        some ⟨1, ⟨1, 0, 0⟩, ⟨0, 0, 0⟩, false, 7⟩ := by
  refine ⟨rfl, ?_⟩
  norm_num [rt_sphere_hit, sphere_root, sqZ, Vec3q.sub, Vec3q.dot,
    Vec3q.length_squared, Vec3q.zero, Vec3q.sdiv, Vec3q.neg, Ray.at, Vec3q.add,
    Vec3q.smul, set_face_normal, EQ.elt]

theorem degenerate_geometry_handling_witness :
    rt_triangle_hit ⟨0, 0, 0⟩ ⟨1, 0, 0⟩ ⟨1, 0, 0⟩ ⟨1, 0, 0⟩ ⟨1, 0, 0⟩ ⟨0, 0, 1⟩ 0
      ⟨⟨0, 0, 5⟩, ⟨0, 1, 0⟩⟩ (1 / 1000) EQ.pinf = none :=
  degenerate_geometry_handling.1 ⟨0, 0, 0⟩ ⟨1, 0, 0⟩ ⟨1, 0, 0⟩ ⟨1, 0, 0⟩ ⟨1, 0, 0⟩
    ⟨0, 0, 1⟩ 0 ⟨⟨0, 0, 5⟩, ⟨0, 1, 0⟩⟩ (1 / 1000) EQ.pinf
    (by norm_num [Vec3q.dot, Vec3q.cross])

/-!
## C1: BVH traversal versus brute-force intersection
-/

theorem elt_fin_fin_false (a b : ℚ) : EQ.elt (EQ.fin a) (EQ.fin b) = false ↔ b ≤ a := by
  simp only [EQ.elt]
  split_ifs with h
  · simp only [Bool.true_eq_false, false_iff, not_le]
    exact h
  · simp only [not_lt] at h
    simp [h]

theorem elt_fin_trans (t_max : EQ) (a b : ℚ)
    (h1 : EQ.elt t_max (EQ.fin a) = false) (h2 : b ≤ a) :
    EQ.elt t_max (EQ.fin b) = false := by
  cases t_max with
  | nan => rfl
  | ninf => simp [EQ.elt] at h1
  | pinf => rfl
  | fin m =>
    rw [elt_fin_fin_false] at h1 ⊢
    linarith

theorem prim_hit_t_bound (sq : ℚ → ℚ) (p : Prim) (r : Ray) (t_min : ℚ)
    (t_max : EQ) (rec0 : HitRec)
    (h : prim_hit sq p r t_min t_max = some rec0) :
    t_min ≤ rec0.t ∧ EQ.elt t_max (EQ.fin rec0.t) = false := by
  cases p with
  | tri v0 v1 v2 e1 e2 n m =>
    simp only [prim_hit, rt_triangle_hit] at h
    split at h
    · exact absurd h (by simp)
    · split at h
      · exact absurd h (by simp)
      · split at h
        · exact absurd h (by simp)
        · split at h
          · exact absurd h (by simp)
          · rename_i hguard
            push_neg at hguard
            simp only [Option.some.injEq] at h
            rw [← h]
            exact ⟨hguard.1, by simpa using hguard.2⟩
  | sph c rad m =>
    simp only [prim_hit, rt_sphere_hit] at h
    split at h
    · exact absurd h (by simp)
    · split at h
      · exact absurd h (by simp)
      · rename_i rt hsr
        obtain ⟨-, hlo, hhi⟩ := sphere_root_spec _ _ _ _ rt hsr
        simp only [Option.some.injEq] at h
        rw [← h]
        exact ⟨hlo, hhi⟩

theorem elt_fin_fin_true (a b : ℚ) : EQ.elt (EQ.fin a) (EQ.fin b) = true ↔ a < b := by
  simp only [EQ.elt]
  split_ifs with h
  · simp [h]
  · simpa using h

/-- Widening the upper interval bound preserves a `sphere_root` selection,
provided the roots are ordered (`root1 <= root2`, true whenever the square
root is nonnegative). -/
theorem sphere_root_widen (t_min t' : ℚ) (t_max : EQ) (root1 root2 rt : ℚ)
    (h12 : root1 ≤ root2)
    (h : sphere_root t_min (EQ.fin t') root1 root2 = some rt)
    (hle : EQ.elt t_max (EQ.fin t') = false) :
    sphere_root t_min t_max root1 root2 = some rt := by
  unfold sphere_root at h ⊢
  split_ifs at h with h1 h2
  · push_neg at h2
    have hroot2 : root2 ≤ t' := (elt_fin_fin_false _ _).mp (by simpa using h2.2)
    have hw2 : ¬(root2 < t_min ∨ EQ.elt t_max (EQ.fin root2) = true) := by
      push_neg
      exact ⟨h2.1, by simp [elt_fin_trans _ _ _ hle hroot2]⟩
    rcases h1 with hb | hb
    · rw [if_pos (Or.inl hb), if_neg hw2]
      exact h
    · exfalso
      have hlt : t' < root1 := (elt_fin_fin_true _ _).mp hb
      linarith
  · push_neg at h1
    have hroot1 : root1 ≤ t' := (elt_fin_fin_false _ _).mp (by simpa using h1.2)
    have hw1 : ¬(root1 < t_min ∨ EQ.elt t_max (EQ.fin root1) = true) := by
      push_neg
      exact ⟨h1.1, by simp [elt_fin_trans _ _ _ hle hroot1]⟩
    rw [if_neg hw1]
    exact h

/-- Widening the upper interval bound preserves a primitive hit and its
record (for the sphere this uses nonnegativity of the square-root oracle to
order the two roots). -/
theorem prim_hit_widen (sq : ℚ → ℚ) (hsq : ∀ x, 0 ≤ sq x) (p : Prim) (r : Ray)
    (t_min t' : ℚ) (t_max : EQ) (rec0 : HitRec)
    (h : prim_hit sq p r t_min (EQ.fin t') = some rec0)
    (hle : EQ.elt t_max (EQ.fin t') = false) :
    prim_hit sq p r t_min t_max = some rec0 := by
  cases p with
  | tri v0 v1 v2 e1 e2 n m =>
    simp only [prim_hit, rt_triangle_hit] at h ⊢
    split at h
    · exact absurd h (by simp)
    · rename_i hc1
      rw [if_neg hc1]
      split at h
      · exact absurd h (by simp)
      · rename_i hc2
        rw [if_neg hc2]
        split at h
        · exact absurd h (by simp)
        · rename_i hc3
          rw [if_neg hc3]
          split at h
          · exact absurd h (by simp)
          · rename_i hc4
            push_neg at hc4
            have helf := (elt_fin_fin_false _ _).mp (by simpa using hc4.2)
            split
            · rename_i hcT
              exfalso
              rcases hcT with hbad | hbad
              · exact absurd hbad (not_lt.mpr hc4.1)
              · simp [elt_fin_trans _ _ _ hle helf] at hbad
            · exact h
  | sph c rad m =>
    simp only [prim_hit, rt_sphere_hit] at h ⊢
    split at h
    · exact absurd h (by simp)
    · rename_i hdisc
      rw [if_neg hdisc]
      split at h
      · exact absurd h (by simp)
      · rename_i rt hsr
        have hwide := sphere_root_widen _ t' t_max _ _ rt ?h12 hsr hle
        case h12 =>
          have hC : 0 ≤ r.dir.length_squared := Vec3q.length_squared_nonneg _
          have hB : (0 : ℚ) ≤ sq (r.dir.dot (c.sub r.orig) * r.dir.dot (c.sub r.orig) -
              r.dir.length_squared * ((c.sub r.orig).length_squared - rad * rad)) := hsq _
          rcases eq_or_lt_of_le hC with h0 | h0
          · rw [← h0]
            simp
          · rw [div_le_div_iff₀ h0 h0]
            nlinarith [hB]
        rw [hwide]
        exact h

theorem mem_insertOrd (lt : Prim → Prim → Bool) (x a : Prim) (l : List Prim) :
    a ∈ insertOrd lt x l ↔ a = x ∨ a ∈ l := by
  induction l with
  | nil => simp [insertOrd]
  | cons y ys ih =>
    simp only [insertOrd]
    split
    · simp
    · simp only [List.mem_cons, ih]
      tauto

theorem mem_sortObjects (lt : Prim → Prim → Bool) (a : Prim) (l : List Prim) :
    a ∈ sortObjects lt l ↔ a ∈ l := by
  induction l with
  | nil => simp [sortObjects]
  | cons x xs ih =>
    simp only [sortObjects, mem_insertOrd, List.mem_cons, ih]

/-- Every hit reported by `hit_node` satisfies the query interval's bounds. -/
theorem hit_node_t_bound (sq : ℚ → ℚ) (tr : BVHTree) :
    ∀ (r : Ray) (t_min : ℚ) (t_max : EQ) (rec0 : HitRec),
      hit_node sq tr r t_min t_max = some rec0 →
      t_min ≤ rec0.t ∧ EQ.elt t_max (EQ.fin rec0.t) = false := by
  induction tr with
  | leaf b obj =>
    intro r t_min t_max rec0 h
    simp only [hit_node] at h
    split at h
    · exact prim_hit_t_bound sq obj r t_min t_max rec0 h
    · exact absurd h (by simp)
  | node b l ri ihl ihr =>
    intro r t_min t_max rec0 h
    simp only [hit_node] at h
    split at h
    · split at h
      · rename_i recL hL
        split at h
        · rename_i recR hR
          simp only [Option.some.injEq] at h
          obtain ⟨hminL, hmaxL⟩ := ihl r t_min t_max recL hL
          obtain ⟨hminR, hmaxR⟩ := ihr r t_min (EQ.fin recL.t) recR hR
          have hRle : recR.t ≤ recL.t := (elt_fin_fin_false _ _).mp hmaxR
          rw [← h]
          exact ⟨hminR, elt_fin_trans _ _ _ hmaxL hRle⟩
        · simp only [Option.some.injEq] at h
          rw [← h]
          exact ihl r t_min t_max recL hL
      · exact ihr r t_min t_max rec0 h
    · exact absurd h (by simp)

/-- Soundness of BVH traversal over `build_tree`: every reported hit is a
genuine primitive hit, with the identical record, on the queried interval. -/
theorem hit_node_build_sound (sq : ℚ → ℚ) (hsq : ∀ x, 0 ≤ sq x) :
    ∀ (n : ℕ) (l : List Prim), l.length ≤ n → l ≠ [] →
    ∀ (r : Ray) (t_min : ℚ) (t_max : EQ) (rec0 : HitRec),
      hit_node sq (build_tree l) r t_min t_max = some rec0 →
      ∃ p ∈ l, prim_hit sq p r t_min t_max = some rec0 := by
  intro n
  induction n with
  | zero =>
    intro l hlen hne
    cases l with
    | nil => exact absurd rfl hne
    | cons a as => simp at hlen
  | succ n ih =>
    intro l hlen hne r t_min t_max rec0 h
    match l with
    | [] => exact absurd rfl hne
    | [p] =>
      simp only [build_tree, hit_node] at h
      split at h
      · exact ⟨p, by simp, h⟩
      · exact absurd h (by simp)
    | p :: q :: rest =>
      rw [build_tree] at h
      simp only [hit_node] at h
      set axis := rt_aabb_longest_axis (combine_all p (q :: rest)) with haxis
      set sorted := sortObjects (bvh_lt axis) (p :: q :: rest) with hsorted
      set mid := (p :: q :: rest).length / 2 with hmid
      have hslen : sorted.length = (p :: q :: rest).length := sortObjects_length _ _
      have hmidlt : mid < (p :: q :: rest).length := by
        rw [hmid]
        simp only [List.length_cons]
        omega
      have hmidpos : 0 < mid := by
        rw [hmid]
        simp only [List.length_cons]
        omega
      have hlenL : (sorted.take mid).length = mid := by
        rw [List.length_take]
        omega
      have hlenR : (sorted.drop mid).length = sorted.length - mid := by
        rw [List.length_drop]
      have hneL : sorted.take mid ≠ [] := by
        intro he
        rw [← List.length_eq_zero] at he
        omega
      have hneR : sorted.drop mid ≠ [] := by
        intro he
        rw [← List.length_eq_zero] at he
        omega
      have hmemL : ∀ a, a ∈ sorted.take mid → a ∈ p :: q :: rest := by
        intro a hmem
        rw [← mem_sortObjects (bvh_lt axis) a]
        exact List.take_subset mid sorted hmem
      have hmemR : ∀ a, a ∈ sorted.drop mid → a ∈ p :: q :: rest := by
        intro a hmem
        rw [← mem_sortObjects (bvh_lt axis) a]
        exact List.drop_subset mid sorted hmem
      have hlenL' : (sorted.take mid).length ≤ n := by omega
      have hlenR' : (sorted.drop mid).length ≤ n := by
        simp only [List.length_cons] at hslen hmidlt hmidpos hlen ⊢
        omega
      split at h
      · split at h
        · rename_i recL hL
          split at h
          · rename_i recR hR
            simp only [Option.some.injEq] at h
            obtain ⟨pp, hpmem, hphit⟩ :=
              ih (sorted.drop mid) hlenR' hneR r t_min (EQ.fin recL.t) recR hR
            obtain ⟨-, hmaxL⟩ := hit_node_t_bound sq _ r t_min t_max recL hL
            have hwide := prim_hit_widen sq hsq pp r t_min recL.t t_max recR hphit hmaxL
            exact ⟨pp, hmemR pp hpmem, by rw [← h]; exact hwide⟩
          · simp only [Option.some.injEq] at h
            obtain ⟨pp, hpmem, hphit⟩ :=
              ih (sorted.take mid) hlenL' hneL r t_min t_max recL hL
            exact ⟨pp, hmemL pp hpmem, by rw [← h]; exact hphit⟩
        · obtain ⟨pp, hpmem, hphit⟩ :=
            ih (sorted.drop mid) hlenR' hneR r t_min t_max rec0 h
          exact ⟨pp, hmemR pp hpmem, hphit⟩
      · exact absurd h (by simp)

/-- C1 (amended): every hit reported by BVH traversal (`rt_bvh::hit` over the
tree built by `build_tree`) is a genuine hit of one of the list's primitives,
with the identical hit record, on the same query interval.  The converse of
the claim - and hence the claimed equivalence with brute-force
`rt_hittable_list::hit` - is false: the box test rejects on `t_max <= t_min`,
so a ray meeting a primitive exactly where the slab intervals of its bounding
box intersect in a single parameter point is found by the brute-force loop
but missed by the BVH (see the counterexample). -/
theorem rt_bvh_hit_sound (sq : ℚ → ℚ) (hsq : ∀ x, 0 ≤ sq x)
    (objects : List Prim) (r : Ray) (t_min : ℚ) (t_max : EQ) (rec0 : HitRec)
    (h : rt_bvh_hit sq objects r t_min t_max = some rec0) :
    ∃ p ∈ objects, prim_hit sq p r t_min t_max = some rec0 := by
  cases objects with
  | nil => simp [rt_bvh_hit] at h
  | cons a as =>
    exact hit_node_build_sound sq hsq (a :: as).length (a :: as) le_rfl (by simp)
      r t_min t_max rec0 h

/-- The triangle of the grazing counterexample: vertices `(0,0,0)`, `(1,0,1)`,
`(0,1,1)`. -/
def triC1 : Prim := mk_rt_triangle sqZ ⟨0, 0, 0⟩ ⟨1, 0, 1⟩ ⟨0, 1, 1⟩ 0

/-- The grazing ray: origin `(-1,-1,1)`, direction `(1,1,-1)`; it meets the
triangle exactly at the vertex `(0,0,0)`, which is the corner of the
triangle's bounding box where the slab intervals intersect in the single
parameter `t = 1`. -/
def rayC1 : Ray := ⟨⟨-1, -1, 1⟩, ⟨1, 1, -1⟩⟩

/-- C1 as stated is false: brute-force intersection over the one-triangle
list reports a hit at `t = 1`, while BVH traversal over the tree built from
the same list reports no hit (the slab test rejects with
`t_max = t_min = 1`). -/
theorem bvh_brute_force_disagree :
    rt_hittable_list_hit sqZ [triC1] rayC1 (1 / 1000) EQ.pinf =
        some ⟨1, ⟨0, 0, 0⟩, ⟨0, 0, 0⟩, false, 0⟩ ∧
      rt_bvh_hit sqZ [triC1] rayC1 (1 / 1000) EQ.pinf = none := by
  constructor
  · norm_num [rt_hittable_list_hit, prim_hit, rt_triangle_hit, triC1, rayC1,
      mk_rt_triangle, unit_vector, sqZ, Vec3q.sub, Vec3q.cross, Vec3q.dot,
      Vec3q.sdiv, Vec3q.length_squared, Vec3q.neg, Vec3q.add, Vec3q.smul,
      Ray.at, set_face_normal, EQ.elt]
  · norm_num [rt_bvh_hit, build_tree, hit_node, rt_aabb_hit, slab_axis,
      compute_bounds, pad_axis, triC1, rayC1, mk_rt_triangle, unit_vector, sqZ,
      Vec3q.sub, Vec3q.cross, Vec3q.dot, Vec3q.sdiv, Vec3q.length_squared,
      Vec3q.zero, EQ.ediv, EQ.stdmin, EQ.stdmax, EQ.elt, EQ.ele]

/-- The witness triangle for BVH soundness: vertices `(0,0,0)`, `(1,0,0)`,
`(0,1,0)`, material 7. -/
def triS : Prim := mk_rt_triangle sqZ ⟨0, 0, 0⟩ ⟨1, 0, 0⟩ ⟨0, 1, 0⟩ 7

theorem rt_bvh_hit_sound_witness :
    ∃ p ∈ [triS],
      prim_hit sqZ p ⟨⟨1 / 5, 1 / 5, 1⟩, ⟨0, 0, -1⟩⟩ (1 / 1000) EQ.pinf =
        some ⟨1, ⟨1 / 5, 1 / 5, 0⟩, ⟨0, 0, 0⟩, false, 7⟩ :=
  rt_bvh_hit_sound sqZ (fun _ => le_refl 0) [triS]
    ⟨⟨1 / 5, 1 / 5, 1⟩, ⟨0, 0, -1⟩⟩ (1 / 1000) EQ.pinf
    ⟨1, ⟨1 / 5, 1 / 5, 0⟩, ⟨0, 0, 0⟩, false, 7⟩
    (by norm_num [rt_bvh_hit, build_tree, hit_node, rt_aabb_hit, slab_axis,
      compute_bounds, pad_axis, triS, mk_rt_triangle, unit_vector, sqZ,
      prim_hit, rt_triangle_hit, Vec3q.sub, Vec3q.cross, Vec3q.dot, Vec3q.sdiv,
      Vec3q.length_squared, Vec3q.zero, Vec3q.neg, Vec3q.add, Vec3q.smul,
      Ray.at, set_face_normal, EQ.ediv, EQ.stdmin, EQ.stdmax, EQ.elt, EQ.ele])
